import Mathlib

set_option autoImplicit false
set_option exponentiation.threshold 4000
set_option maxRecDepth 8000

/-!
Shallow embedding of the entity-resolution subsystem of the
`summary_report` repository (`logistics/utils.py`, `logistics/models.py`).

Machines are identified by their canonical `name` (a `CharField` with a
case-sensitive `unique=True` constraint), so the machine table is embedded
as a list of names.  `MachineAlias` rows carry the alias text, the name of
the machine they point to, a `source` tag and a rational
`confidence_score`.  Django query semantics are embedded explicitly:
`get(...)` with zero matches raises `DoesNotExist` (caught where the code
catches it), with two or more matches raises `MultipleObjectsReturned`
(never caught in this code), and `create` on a value violating the unique
constraint raises `IntegrityError`.  Uncaught exceptions appear as the
`Except` error branch.  The RapidFuzz scorer and the Gemini oracle are
external libraries, so they are parameters of the embedded functions; a
raising oracle call is an `Except.error`.  Similarity scores and
confidences are rationals (the Python float values actually stored are
multiples of 1/100, hence exact).

Python's `str.strip`, `str.lower` and Django's `__iexact` are embedded
over ASCII: `pyStrip` drops the ASCII whitespace characters and `pyLower`
maps `A-Z` to `a-z`.  (Python also handles some further Unicode
whitespace and case foldings; no claim depends on those.)
-/

namespace SummaryReport

/-- Exceptions of the Python runtime that the embedded code can leave
uncaught. -/
inductive PyError where
  | multipleObjectsReturned
  | doesNotExist
  | integrityError
  | overflowError
  deriving DecidableEq, Repr

/-- ASCII lower-casing of one character (Python `str.lower` restricted to
ASCII). -/
def lowerChar (c : Char) : Char :=
  if 'A' ≤ c ∧ c ≤ 'Z' then Char.ofNat (c.toNat + 32) else c

/-- Python `str.lower` (ASCII fragment). -/
def pyLower (s : String) : String := ⟨s.data.map lowerChar⟩

/-- Python `str.strip()` (ASCII whitespace fragment). -/
def pyStrip (s : String) : String :=
  ⟨((s.data.dropWhile Char.isWhitespace).reverse.dropWhile Char.isWhitespace).reverse⟩

/-- Django `__iexact` lookup: case-insensitive string equality. -/
def iexactEq (a b : String) : Bool := pyLower a == pyLower b

/-- One row of the `MachineAlias` table (`logistics/models.py`).  The
column is called `alias` in the source; `alias` is a reserved word here,
so the field carries the spec's name `alias_text`. -/
structure MachineAlias where
  alias_text : String
  machine : String
  source : String
  confidence_score : ℚ
  deriving DecidableEq, Repr

/-- The database state the resolver reads and writes: the `Machine` table
(as its list of canonical names) and the `MachineAlias` table. -/
structure DB where
  machines : List String
  aliases : List MachineAlias
  deriving DecidableEq, Repr

/-- The outcome of one `resolve_machine` call: the resolved machine name
(if any), the database after the call, which step returned (1-4, `none`
when unresolved), and whether the fuzzy scorer / the oracle were invoked. -/
structure Outcome where
  result : Option String
  db : DB
  tier : Option Nat
  scorerCalled : Bool
  oracleCalled : Bool
  deriving DecidableEq, Repr

/-- `FUZZY_MATCH_THRESHOLD = 85` (`logistics/utils.py`). -/
def FUZZY_MATCH_THRESHOLD : ℚ := 85

/-- `rapidfuzz.process.extractOne`: the candidate with the highest score;
on ties the first-seen candidate is kept.  Returns `none` only on an empty
candidate list. -/
def extractOne (scorer : String → String → ℚ) (query : String)
    (choices : List String) : Option (String × ℚ) :=
  choices.foldl (fun acc c =>
    match acc with
    | none => some (c, scorer query c)
    | some (b, s) => if s < scorer query c then some (c, scorer query c) else some (b, s))
    none

/-- `_ai_resolve_machine` (`logistics/utils.py`).  The oracle parameter is
`none` when `get_gemini_model()` returns `None` (tier skipped, oracle not
invoked).  Returns the resolved machine name, the database after the call,
and whether the oracle was invoked.  Every exception inside the body is
caught by the bare `except` -- including an `IntegrityError` from
`MachineAlias.objects.create` when the alias text already exists, in which
case `None` is returned and nothing is written -- so the function itself
never raises. -/
def ai_resolve_machine (oracle : Option (String → List String → Except Unit String))
    (db : DB) (input_name : String) (valid_machines : List String) :
    Option String × DB × Bool :=
  match oracle with
  | none => (none, db, false)
  | some gen =>
    match gen input_name valid_machines with
    | .error _ => (none, db, true)
    | .ok text =>
      let ai_suggestion := pyStrip text
      if ai_suggestion ≠ "" ∧ ai_suggestion ≠ "None" ∧ ai_suggestion ∈ valid_machines then
        match db.machines.find? (fun m => m == ai_suggestion) with
        | some machine =>
          if db.aliases.any (fun a => a.alias_text == input_name) then
            (none, db, true)
          else
            (some machine,
             { db with aliases := db.aliases ++ [⟨input_name, machine, "ai", 8/10⟩] },
             true)
        | none => (none, db, true)
      else (none, db, true)

/-- Steps 4-5 of `resolve_machine`: the AI fallback, entered only when
`use_ai_fallback` holds and the machine table is non-empty. -/
def aiStep (oracle : Option (String → List String → Except Unit String))
    (db : DB) (clean_name : String) (valid_machines : List String)
    (use_ai_fallback : Bool) (scorerCalled : Bool) : Outcome :=
  if use_ai_fallback ∧ valid_machines ≠ [] then
    match ai_resolve_machine oracle db clean_name valid_machines with
    | (some m, db2, called) => ⟨some m, db2, some 4, scorerCalled, called⟩
    | (none, db2, called) => ⟨none, db2, none, scorerCalled, called⟩
  else ⟨none, db, none, scorerCalled, false⟩

/-- Steps 3-5 of `resolve_machine`: fuzzy matching over the machine-name
snapshot, then the AI fallback.  The `create` of the fuzzy alias is not
inside a `try`, so a unique-constraint violation would propagate, as would
`Machine.objects.get(name=best_match)` missing. -/
def fuzzyStep (scorer : String → String → ℚ)
    (oracle : Option (String → List String → Except Unit String))
    (db : DB) (clean_name : String) (use_ai_fallback : Bool) :
    Except PyError Outcome :=
  let valid_machines := db.machines
  match extractOne scorer clean_name valid_machines with
  | some (best_match, score) =>
    if FUZZY_MATCH_THRESHOLD ≤ score then
      match db.machines.find? (fun m => m == best_match) with
      | some machine =>
        if db.aliases.any (fun a => a.alias_text == clean_name) then
          .error .integrityError
        else
          .ok ⟨some machine,
               { db with aliases := db.aliases ++ [⟨clean_name, machine, "fuzzy", score / 100⟩] },
               some 3, true, false⟩
      | none => .error .doesNotExist
    else .ok (aiStep oracle db clean_name valid_machines use_ai_fallback true)
  | none => .ok (aiStep oracle db clean_name valid_machines use_ai_fallback false)

/-- `resolve_machine` (`logistics/utils.py`).  `input_name = none` embeds a
Python `None` argument (falsy, so the guard returns immediately).  Step 1
is a `get(name__iexact=...)` on the machine table, step 2 a
`get(alias__iexact=...)` on the alias table; both catch only
`DoesNotExist`. -/
def resolve_machine (scorer : String → String → ℚ)
    (oracle : Option (String → List String → Except Unit String))
    (db : DB) (input_name : Option String) (use_ai_fallback : Bool) :
    Except PyError Outcome :=
  match input_name with
  | none => .ok ⟨none, db, none, false, false⟩
  | some raw =>
    if pyStrip raw = "" then .ok ⟨none, db, none, false, false⟩
    else
      let clean_name := pyStrip raw
      match db.machines.filter (fun m => iexactEq m clean_name) with
      | [machine] => .ok ⟨some machine, db, some 1, false, false⟩
      | [] =>
        match db.aliases.filter (fun a => iexactEq a.alias_text clean_name) with
        | [a] => .ok ⟨some a.machine, db, some 2, false, false⟩
        | [] => fuzzyStep scorer oracle db clean_name use_ai_fallback
        | _ => .error .multipleObjectsReturned
      | _ => .error .multipleObjectsReturned

/-! ### `clean_numeric_value`

`clean_numeric_value` feeds its input to `str(...)`, then to Python's
`float(...)` and `int(...)`.  A Python float parse is embedded as a sign,
a decimal mantissa and a power-of-ten exponent; a literal whose magnitude
reaches the IEEE-754 double overflow bound becomes an infinity, exactly as
`float("1e999")` does.  Rounding of in-range literals to the nearest
double is not embedded (no claim depends on it), and neither are digit
separators (underscores). -/

/-- Result of Python `float(...)` on a string that parses. -/
inductive PyFloat where
  | finite (neg : Bool) (mantissa : Nat) (exp : Int)
  | inf (neg : Bool)
  | nan
  deriving DecidableEq, Repr

/-- Decimal value of a digit list (most significant first). -/
def digitsToNat : List Char → Nat → Nat
  | [], acc => acc
  | c :: cs, acc => digitsToNat cs (acc * 10 + (c.toNat - 48))

/-- Consume an optional leading sign; `true` means negative. -/
def parseSign : List Char → Bool × List Char
  | '+' :: cs => (false, cs)
  | '-' :: cs => (true, cs)
  | cs => (false, cs)

/-- Magnitudes at least `(2^54 - 1) * 2^970 = (2 - 2^-53) * 2^1023` round
to an IEEE-754 double infinity (ties-to-even sends the bound itself up). -/
def pyFloatOverflowThreshold : Nat := (2 ^ 54 - 1) * 2 ^ 970

/-- Whether `mantissa * 10 ^ exp` rounds to an infinite double. -/
def floatOverflows (mantissa : Nat) (exp : Int) : Bool :=
  if 0 ≤ exp then pyFloatOverflowThreshold ≤ mantissa * 10 ^ exp.toNat
  else pyFloatOverflowThreshold * 10 ^ (-exp).toNat ≤ mantissa

/-- Package a parsed decimal literal as a `PyFloat`, overflowing to an
infinity as C `strtod` does. -/
def pyFloatOfParts (neg : Bool) (mantissa : Nat) (exp : Int) : PyFloat :=
  if floatOverflows mantissa exp then .inf neg else .finite neg mantissa exp

/-- Parse the part of a decimal literal before any exponent marker:
digits with at most one dot, at least one digit in total.  Returns the
mantissa digits value and the number of fractional digits. -/
def parseMantissa (cs : List Char) : Option (Nat × Nat) :=
  let intPart := cs.takeWhile (fun c => c != '.')
  let rest := cs.dropWhile (fun c => c != '.')
  match rest with
  | [] =>
    if intPart ≠ [] ∧ intPart.all Char.isDigit then
      some (digitsToNat intPart 0, 0) else none
  | _ :: fracPart =>
    if (intPart ≠ [] ∨ fracPart ≠ []) ∧ intPart.all Char.isDigit ∧
        fracPart.all Char.isDigit then
      some (digitsToNat (intPart ++ fracPart) 0, fracPart.length) else none

/-- Parse an exponent suffix (after `e`/`E`): optional sign, then at least
one digit. -/
def parseExp (cs : List Char) : Option Int :=
  let (neg, digits) := parseSign cs
  if digits ≠ [] ∧ digits.all Char.isDigit then
    some (if neg then -(digitsToNat digits 0 : Int) else (digitsToNat digits 0 : Int))
  else none

/-- Python `float(...)` on an already-stripped string: optional sign, then
either an `inf`/`infinity`/`nan` keyword (case-insensitive) or a decimal
literal with optional fraction and exponent.  `none` embeds the
`ValueError` that `float` raises on anything else. -/
def pyFloatParse (s : String) : Option PyFloat :=
  let (neg, rest) := parseSign s.data
  if pyLower ⟨rest⟩ = "inf" ∨ pyLower ⟨rest⟩ = "infinity" then some (.inf neg)
  else if pyLower ⟨rest⟩ = "nan" then some .nan
  else
    let mantPart := rest.takeWhile (fun c => c != 'e' && c != 'E')
    let expPart := rest.dropWhile (fun c => c != 'e' && c != 'E')
    match parseMantissa mantPart with
    | none => none
    | some (mantissa, fracLen) =>
      match expPart with
      | [] => some (pyFloatOfParts neg mantissa (-(fracLen : Int)))
      | _ :: expDigits =>
        match parseExp expDigits with
        | none => none
        | some e => some (pyFloatOfParts neg mantissa (e - (fracLen : Int)))

/-- Python `int(...)` applied to a finite float: truncation toward zero. -/
def floatTruncToInt (neg : Bool) (mantissa : Nat) (exp : Int) : Int :=
  let v : Nat :=
    if 0 ≤ exp then mantissa * 10 ^ exp.toNat else mantissa / 10 ^ (-exp).toNat
  if neg then -(v : Int) else (v : Int)

/-- The kinds of value a spreadsheet cell can hand `clean_numeric_value`:
Python `None`, a string, or an integer (anything else goes through
`str(...)` the same way). -/
inductive ExcelValue where
  | none
  | str (s : String)
  | int (n : Int)
  deriving DecidableEq, Repr

/-- Python `str(...)` on an `ExcelValue`. -/
def pyStr : ExcelValue → String
  | .none => "None"
  | .str s => s
  | .int n => toString n

/-- `clean_numeric_value` (`logistics/utils.py`).  The placeholder check
is a case-sensitive list membership on the stripped string.  The
`try`/`except` catches only `ValueError` and `TypeError`: a parse failure
of `float` and the `ValueError` of `int(float("nan"))` yield the default,
but the `OverflowError` of `int` on an infinite float propagates. -/
def clean_numeric_value (value : ExcelValue) (default : Int) : Except PyError Int :=
  match value with
  | .none => .ok default
  | v =>
    let str_value := pyStrip (pyStr v)
    if str_value ∈ (["/", "-", "", "nan", "None", "N/A", "n/a"] : List String) then
      .ok default
    else
      match pyFloatParse str_value with
      | Option.none => .ok default
      | some (.finite neg m e) => .ok (floatTruncToInt neg m e)
      | some .nan => .ok default
      | some (.inf _) => .error .overflowError

/-! ### `get_or_create_operator` -/

/-- One row of the `Operator` table, restricted to the columns
`get_or_create_operator` touches. -/
structure Operator where
  name : String
  is_driver : Bool
  deriving DecidableEq, Repr

/-- `get_or_create_operator` (`logistics/utils.py`).  A blank name returns
`(None, False)` without touching the store.  Otherwise a
`get_or_create(name__iexact=...)`: an existing match is returned and, when
the call carries `is_driver=True` and the row does not, the row is
promoted; a miss creates the operator with the given flag.  Returns the
operator, the `created` flag, and the operator table after the call. -/
def get_or_create_operator (ops : List Operator) (name : Option String)
    (is_driver : Bool) : Except PyError (Option Operator × Bool × List Operator) :=
  match name with
  | none => .ok (none, false, ops)
  | some n =>
    if pyStrip n = "" then .ok (none, false, ops)
    else
      let clean_name := pyStrip n
      match ops.filter (fun o => iexactEq o.name clean_name) with
      | [op] =>
        if is_driver ∧ op.is_driver = false then
          .ok (some { op with is_driver := true }, false,
               ops.map (fun o =>
                 if iexactEq o.name clean_name then { o with is_driver := true } else o))
        else .ok (some op, false, ops)
      | [] => .ok (some ⟨clean_name, is_driver⟩, true, ops ++ [⟨clean_name, is_driver⟩])
      | _ => .error .multipleObjectsReturned

/-- A sequence of `get_or_create_operator` calls, each threading the
operator table to the next. -/
def runOperatorCalls (calls : List (Option String × Bool)) (ops : List Operator) :
    Except PyError (List Operator) :=
  match calls with
  | [] => .ok ops
  | (n, d) :: rest =>
    match get_or_create_operator ops n d with
    | .ok (_, _, ops2) => runOperatorCalls rest ops2
    | .error e => .error e

/-! ### `batch_ai_resolve_machines`

The batch resolver's oracle call wraps `model.generate_content`, the
code-fence stripping and `json.loads`: its success value is the parsed
JSON object as an association list (JSON `null` becomes `none`), and its
`error` covers both a raising oracle and a malformed response.  The
`results` dictionary is embedded as an insertion-ordered association list
with Python-dict assignment semantics. -/

/-- `BATCH_SIZE = 20` (`logistics/utils.py`). -/
def BATCH_SIZE : Nat := 20

/-- Python dict assignment `d[k] = v`: replace in place, else append. -/
def dictInsert (d : List (String × Option String)) (k : String) (v : Option String) :
    List (String × Option String) :=
  match d with
  | [] => [(k, v)]
  | (k2, v2) :: rest =>
    if k2 == k then (k2, v) :: rest else (k2, v2) :: dictInsert rest k v

/-- `raw_names[i:i+BATCH_SIZE]` slicing loop: split a list into chunks of
`n` (structural recursion on a length fuel). -/
def chunksOfAux {α : Type} (n : Nat) : Nat → List α → List (List α)
  | 0, _ => []
  | _, [] => []
  | fuel + 1, l => l.take n :: chunksOfAux n fuel (l.drop n)

/-- The chunks `raw_names[0:n], raw_names[n:2n], ...`. -/
def chunksOf {α : Type} (n : Nat) (l : List α) : List (List α) :=
  chunksOfAux n l.length l

/-- The per-entry body of the batch results loop: validate one
`raw -> resolved_name` pair from the oracle's JSON, record the result, and
`get_or_create` the `ai_batch` alias (keyed on the exact alias text; the
unique constraint keeps the exact-match `get` single-valued). -/
def applyBatchEntry (valid_machines : List String)
    (st : DB × List (String × Option String)) (entry : String × Option String) :
    DB × List (String × Option String) :=
  let (db, results) := st
  let (raw, resolved_name) := entry
  match resolved_name with
  | some r =>
    if r ≠ "" ∧ r ∈ valid_machines then
      match db.machines.find? (fun m => m == r) with
      | some machine =>
        (if db.aliases.any (fun a => a.alias_text == raw) then db
         else { db with aliases := db.aliases ++ [⟨raw, machine, "ai_batch", 85/100⟩] },
         dictInsert results raw (some machine))
      | none => (db, dictInsert results raw none)
    else (db, dictInsert results raw none)
  | none => (db, dictInsert results raw none)

/-- Process one successfully parsed chunk response. -/
def processChunkEntries (valid_machines : List String)
    (entries : List (String × Option String)) (db : DB)
    (results : List (String × Option String)) : DB × List (String × Option String) :=
  entries.foldl (applyBatchEntry valid_machines) (db, results)

/-- The chunk loop of `batch_ai_resolve_machines`: a failed chunk writes
`None` for each of its own names and the loop continues. -/
def batchAiLoop (batchOracle : List String → Except Unit (List (String × Option String)))
    (valid_machines : List String) :
    List (List String) → DB → List (String × Option String) →
      DB × List (String × Option String)
  | [], db, results => (db, results)
  | chunk :: rest, db, results =>
    match batchOracle chunk with
    | .ok entries =>
      let (db2, results2) := processChunkEntries valid_machines entries db results
      batchAiLoop batchOracle valid_machines rest db2 results2
    | .error _ =>
      batchAiLoop batchOracle valid_machines rest db
        (chunk.foldl (fun r name => dictInsert r name none) results)

/-- `batch_ai_resolve_machines` (`logistics/utils.py`).  The oracle is
`none` when `get_gemini_model()` returns `None`; an empty machine table or
a missing model returns an empty dictionary with the store untouched. -/
def batch_ai_resolve_machines
    (batchOracle : Option (List String → Except Unit (List (String × Option String))))
    (db : DB) (raw_names : List String) : DB × List (String × Option String) :=
  let valid_machines := db.machines
  if valid_machines = [] then (db, [])
  else
    match batchOracle with
    | none => (db, [])
    | some gen => batchAiLoop gen valid_machines (chunksOf BATCH_SIZE raw_names) db []

/-- Case-insensitive uniqueness of alias texts (the spec's reference
behaviour for the alias store). -/
abbrev aliasesCIUnique (l : List MachineAlias) : Prop :=
  l.Pairwise (fun a b => pyLower a.alias_text ≠ pyLower b.alias_text)

/-- Case-sensitive uniqueness of alias texts (what the `unique=True`
database constraint actually enforces). -/
abbrev aliasesCSUnique (l : List MachineAlias) : Prop :=
  l.Pairwise (fun a b => a.alias_text ≠ b.alias_text)

/-- The result keys one chunk's processing writes: the parsed response's
keys on a successful oracle call, the chunk's own names on a failure. -/
def chunkTouched (gen : List String → Except Unit (List (String × Option String)))
    (c : List String) : List String :=
  match gen c with
  | .ok entries => entries.map Prod.fst
  | .error _ => c

/-- The result value `batch_ai_resolve_machines` records for one oracle
JSON entry: the machine when the value is a non-empty canonical name that
the machine table resolves, `none` otherwise. -/
def batchEntryValue (valid machines : List String) (v : Option String) : Option String :=
  match v with
  | some r =>
    if r ≠ "" ∧ r ∈ valid then
      match machines.find? (fun m => m == r) with
      | some machine => some machine
      | none => none
    else none
  | none => none

/-- The batch of the spec's partial-failure scenario: 45 distinct raw
names, split 20/20/5. -/
def c6Names : List String :=
  ["a01", "a02", "a03", "a04", "a05", "a06", "a07", "a08", "a09", "a10",
   "a11", "a12", "a13", "a14", "a15", "a16", "a17", "a18", "a19", "a20",
   "b01", "b02", "b03", "b04", "b05", "b06", "b07", "b08", "b09", "b10",
   "b11", "b12", "b13", "b14", "b15", "b16", "b17", "b18", "b19", "b20",
   "c01", "c02", "c03", "c04", "c05"]

/-- An oracle that raises on the middle chunk (the one holding `"b01"`)
and maps every name of the other chunks to the machine `"M1"`. -/
def c6Gen : List String → Except Unit (List (String × Option String)) :=
  fun c => if c.contains "b01" then .error ()
    else .ok (c.map (fun n => (n, some "M1")))

def c6DB : DB := ⟨["M1"], []⟩

def c7Names : List String := ["x", "y", "zz"]

/-- An oracle that answers for `"x"` and maps `"y"` to null, omitting
`"zz"` from its JSON object. -/
def c7Gen : List String → Except Unit (List (String × Option String)) :=
  fun _ => .ok [("x", some "M1"), ("y", none)]

def c7DB : DB := ⟨["M1"], []⟩


/-! ### Helper lemmas -/

theorem iexactEq_iff {a b : String} : iexactEq a b = true ↔ pyLower a = pyLower b := by
  simp [iexactEq]

theorem iexactEq_self (a : String) : iexactEq a a = true := by
  simp [iexactEq]

theorem find?_beq_self {l : List String} {s : String} (h : s ∈ l) :
    l.find? (fun m => m == s) = some s := by
  induction l with
  | nil => cases h
  | cons a t ih =>
    by_cases ha : a = s
    · subst ha; simp [List.find?]
    · have hb : (a == s) = false := by simp [ha]
      have hmem : s ∈ t := by
        rcases List.mem_cons.mp h with h1 | h1
        · exact absurd h1.symm ha
        · exact h1
      simp [List.find?, hb, ih hmem]

theorem any_beq_false_of_filter_iexact_nil {l : List MachineAlias} {q : String}
    (h : l.filter (fun a => iexactEq a.alias_text q) = []) :
    l.any (fun a => a.alias_text == q) = false := by
  rw [List.filter_eq_nil_iff] at h
  rw [List.any_eq_false]
  intro a ha hbeq
  apply h a ha
  have : a.alias_text = q := by simpa using hbeq
  simp [this, iexactEq_self]

theorem filter_iexact_singleton {l : List String} {m q : String}
    (hnd : l.Pairwise (fun a b => pyLower a ≠ pyLower b))
    (hm : m ∈ l) (hq : iexactEq m q = true) :
    l.filter (fun x => iexactEq x q) = [m] := by
  induction l with
  | nil => cases hm
  | cons a t ih =>
    rw [List.pairwise_cons] at hnd
    rcases List.mem_cons.mp hm with h1 | h1
    · subst h1
      have ht : t.filter (fun x => iexactEq x q) = [] := by
        rw [List.filter_eq_nil_iff]
        intro b hb hbq
        exact hnd.1 b hb ((iexactEq_iff.mp hq).trans (iexactEq_iff.mp hbq).symm)
      simp [List.filter_cons, hq, ht]
    · have ha : iexactEq a q = false := by
        rw [Bool.eq_false_iff]
        intro haq
        exact hnd.1 m h1 ((iexactEq_iff.mp haq).trans (iexactEq_iff.mp hq).symm)
      simp [List.filter_cons, ha, ih hnd.2 h1]

theorem aiStep_tier (oracle : Option (String → List String → Except Unit String))
    (db : DB) (clean_name : String) (valid_machines : List String)
    (use_ai_fallback : Bool) (sc : Bool) :
    (aiStep oracle db clean_name valid_machines use_ai_fallback sc).tier = some 4 ∨
      (aiStep oracle db clean_name valid_machines use_ai_fallback sc).tier = none := by
  unfold aiStep
  split
  · rcases h : ai_resolve_machine oracle db clean_name valid_machines with ⟨r, db2, called⟩
    cases r <;> simp
  · simp

/-! ### C5: blank input -/

/-- C5: a `None`, empty or whitespace-only input makes `resolve_machine`
return `Unresolved` (`None`) immediately: no tier is consulted, the store
is untouched, neither the scorer nor the oracle run, and nothing is
raised. -/
theorem resolve_machine_blank_input
    (scorer : String → String → ℚ)
    (oracle : Option (String → List String → Except Unit String))
    (db : DB) (input_name : Option String) (use_ai_fallback : Bool)
    (h : input_name = none ∨ ∃ s, input_name = some s ∧ pyStrip s = "") :
    resolve_machine scorer oracle db input_name use_ai_fallback =
      .ok ⟨none, db, none, false, false⟩ := by
  rcases h with h | ⟨s, hs, hblank⟩
  · subst h; rfl
  · subst hs; simp [resolve_machine, hblank]

theorem resolve_machine_blank_input_witness :
    ((some "  \t " : Option String) = none ∨
      ∃ s, (some "  \t " : Option String) = some s ∧ pyStrip s = "") ∧
    resolve_machine (fun _ _ => 0) none ⟨["Main Hall"], []⟩ (some "  \t ") true =
      .ok ⟨none, ⟨["Main Hall"], []⟩, none, false, false⟩ :=
  ⟨Or.inr ⟨"  \t ", rfl, rfl⟩,
   resolve_machine_blank_input (fun _ _ => 0) none ⟨["Main Hall"], []⟩ (some "  \t ") true
     (Or.inr ⟨"  \t ", rfl, rfl⟩)⟩

/-! ### C8: `clean_numeric_value` -/

/-- C8: the claim's example values hold, but "never raises" is false:
`int(float("inf"))` raises `OverflowError`, which the function's
`except (ValueError, TypeError)` clause does not catch, so
`clean_numeric_value("inf")` (and `"1e999"`, whose float overflows to
infinity) propagates an exception. -/
theorem clean_numeric_value_overflow_bug :
    clean_numeric_value (.str "inf") 0 = .error .overflowError ∧
    clean_numeric_value (.str " -Infinity ") 3 = .error .overflowError ∧
    clean_numeric_value (.str "1e999") 7 = .error .overflowError ∧
    clean_numeric_value (.str "/") 0 = .ok 0 ∧
    clean_numeric_value (.str "12.7") 0 = .ok 12 ∧
    clean_numeric_value (.str "abc") 42 = .ok 42 ∧
    clean_numeric_value .none 42 = .ok 42 ∧
    clean_numeric_value (.str " NaN ") 9 = .ok 9 ∧
    clean_numeric_value (.str "N/A") 5 = .ok 5 :=
  ⟨rfl, rfl, rfl, rfl, rfl, rfl, rfl, rfl, rfl⟩

/-! ### C2: oracle validation in the single-item AI tier -/

/-- C2 counterexample: with a machine literally named `"None"`, the
oracle's response `"None"` is a verbatim member of the canonical set, yet
the AI tier refuses it (the code tests `ai_suggestion != "None"` before
membership) and writes no alias -- contradicting the claim that every
verbatim-member response returns the corresponding machine and creates an
alias. -/
theorem ai_resolve_machine_none_member_counterexample :
    "None" ∈ (["None"] : List String) ∧
    ai_resolve_machine (some (fun _ _ => .ok "None")) ⟨["None"], []⟩ "nn" ["None"] =
      (none, ⟨["None"], []⟩, true) :=
  ⟨by decide, rfl⟩

/-- C2 amended: the AI tier first strips the oracle's response; if the
stripped response is empty, the literal `"None"`, or not a verbatim
member of the canonical set, it yields no match and creates no alias;
otherwise (no alias row with the same exact text existing) it returns the
corresponding machine and creates an alias with `source="ai"` and fixed
confidence `0.8`. -/
theorem ai_resolve_machine_oracle_validation
    (gen : String → List String → Except Unit String) (db : DB)
    (input_name : String) (r : String)
    (hgen : gen input_name db.machines = .ok r) :
    (pyStrip r = "" ∨ pyStrip r = "None" ∨ pyStrip r ∉ db.machines →
      ai_resolve_machine (some gen) db input_name db.machines = (none, db, true)) ∧
    (pyStrip r ≠ "" → pyStrip r ≠ "None" → pyStrip r ∈ db.machines →
      db.aliases.any (fun a => a.alias_text == input_name) = false →
      ai_resolve_machine (some gen) db input_name db.machines =
        (some (pyStrip r),
         { db with aliases := db.aliases ++ [⟨input_name, pyStrip r, "ai", 8/10⟩] },
         true)) := by
  constructor
  · intro hbad
    have hcond : ¬(pyStrip r ≠ "" ∧ pyStrip r ≠ "None" ∧ pyStrip r ∈ db.machines) := by
      rcases hbad with h | h | h <;> tauto
    simp only [ai_resolve_machine, hgen]
    rw [if_neg hcond]
  · intro h1 h2 h3 h4
    simp only [ai_resolve_machine, hgen]
    rw [if_pos ⟨h1, h2, h3⟩, find?_beq_self h3, h4]
    simp

theorem ai_resolve_machine_oracle_validation_witness :
    ((fun (_ : String) (_ : List String) => (.ok " Main Hall " : Except Unit String)) "MH"
        (DB.mk ["Main Hall"] []).machines = .ok " Main Hall ") ∧
    (pyStrip " Main Hall " ≠ "" → pyStrip " Main Hall " ≠ "None" →
      pyStrip " Main Hall " ∈ (DB.mk ["Main Hall"] []).machines →
      (DB.mk ["Main Hall"] []).aliases.any (fun a => a.alias_text == "MH") = false →
      ai_resolve_machine (some (fun _ _ => .ok " Main Hall ")) ⟨["Main Hall"], []⟩ "MH"
          (DB.mk ["Main Hall"] []).machines =
        (some (pyStrip " Main Hall "),
         { DB.mk ["Main Hall"] [] with
            aliases := (DB.mk ["Main Hall"] []).aliases ++
              [⟨"MH", pyStrip " Main Hall ", "ai", 8/10⟩] },
         true)) :=
  ⟨rfl,
   (ai_resolve_machine_oracle_validation (fun _ _ => .ok " Main Hall ")
      ⟨["Main Hall"], []⟩ "MH" " Main Hall " rfl).2⟩

/-! ### C3: the exact tier is pure -/

/-- C3: when the trimmed raw name case-insensitively equals a canonical
machine name (canonical names being case-insensitively distinct, as the
data model requires), `resolve_machine` answers from tier 1 with that
machine, the database is unchanged -- in particular no alias is created --
and neither the scorer nor the oracle run. -/
theorem resolve_machine_exact_tier_pure
    (scorer : String → String → ℚ)
    (oracle : Option (String → List String → Except Unit String))
    (db : DB) (raw : String) (use_ai_fallback : Bool) (m : String)
    (hnd : db.machines.Pairwise (fun a b => pyLower a ≠ pyLower b))
    (hm : m ∈ db.machines) (heq : iexactEq m (pyStrip raw) = true)
    (hblank : pyStrip raw ≠ "") :
    resolve_machine scorer oracle db (some raw) use_ai_fallback =
      .ok ⟨some m, db, some 1, false, false⟩ := by
  simp only [resolve_machine]
  rw [if_neg hblank, filter_iexact_singleton hnd hm heq]

theorem resolve_machine_exact_tier_pure_witness :
    (DB.mk ["Main Hall", "Library Annex"] []).machines.Pairwise
        (fun a b => pyLower a ≠ pyLower b) ∧
    "Main Hall" ∈ (DB.mk ["Main Hall", "Library Annex"] []).machines ∧
    iexactEq "Main Hall" (pyStrip " MAIN hall ") = true ∧
    pyStrip " MAIN hall " ≠ "" ∧
    resolve_machine (fun _ _ => 0) none ⟨["Main Hall", "Library Annex"], []⟩
        (some " MAIN hall ") true =
      .ok ⟨some "Main Hall", ⟨["Main Hall", "Library Annex"], []⟩, some 1, false, false⟩ :=
  ⟨by decide, by decide, by decide, by decide,
   resolve_machine_exact_tier_pure (fun _ _ => 0) none
     ⟨["Main Hall", "Library Annex"], []⟩ " MAIN hall " true "Main Hall"
     (by decide) (by decide) (by decide) (by decide)⟩

/-! ### `extractOne` lemmas -/

theorem extractOne_go_spec (scorer : String → String → ℚ) (query : String)
    (choices : List String) :
    ∀ (acc : Option (String × ℚ)) (b : String) (s : ℚ),
      choices.foldl (fun acc c =>
        match acc with
        | none => some (c, scorer query c)
        | some (b, s) =>
          if s < scorer query c then some (c, scorer query c) else some (b, s)) acc =
        some (b, s) →
      (acc = some (b, s) ∨ b ∈ choices) ∧
      (∀ c ∈ choices, scorer query c ≤ s) ∧
      (∀ b0 s0, acc = some (b0, s0) → s0 ≤ s) := by
  induction choices with
  | nil =>
    intro acc b s h
    simp only [List.foldl_nil] at h
    subst h
    refine ⟨Or.inl rfl, by simp, fun b0 s0 h0 => ?_⟩
    injection h0 with h1
    injection h1 with hb hs
    rw [← hs]
  | cons c t ih =>
    intro acc b s h
    rw [List.foldl_cons] at h
    obtain ⟨hmem, hmax, hacc⟩ := ih _ b s h
    have hc : scorer query c ≤ s := by
      rcases acc with - | ⟨b0, s0⟩
      · exact hacc c (scorer query c) rfl
      · dsimp only at hacc hmem
        by_cases hlt : s0 < scorer query c
        · rw [if_pos hlt] at hacc
          exact hacc c (scorer query c) rfl
        · rw [if_neg hlt] at hacc
          exact le_trans (le_of_not_lt hlt) (hacc b0 s0 rfl)
    refine ⟨?_, ?_, ?_⟩
    · rcases acc with - | ⟨b0, s0⟩
      · dsimp only at hmem
        rcases hmem with h1 | h1
        · injection h1 with h2
          injection h2 with hb hs
          subst hb
          exact Or.inr (List.mem_cons_self c t)
        · exact Or.inr (List.mem_cons_of_mem c h1)
      · dsimp only at hmem
        by_cases hlt : s0 < scorer query c
        · rw [if_pos hlt] at hmem
          rcases hmem with h1 | h1
          · injection h1 with h2
            injection h2 with hb hs
            subst hb
            exact Or.inr (List.mem_cons_self c t)
          · exact Or.inr (List.mem_cons_of_mem c h1)
        · rw [if_neg hlt] at hmem
          rcases hmem with h1 | h1
          · exact Or.inl h1
          · exact Or.inr (List.mem_cons_of_mem c h1)
    · intro x hx
      rcases List.mem_cons.mp hx with h1 | h1
      · exact h1 ▸ hc
      · exact hmax x h1
    · intro b0 s0 h0
      subst h0
      dsimp only at hacc
      by_cases hlt : s0 < scorer query c
      · rw [if_pos hlt] at hacc
        exact le_trans (le_of_lt hlt) (hacc c (scorer query c) rfl)
      · rw [if_neg hlt] at hacc
        exact hacc b0 s0 rfl

theorem extractOne_mem {scorer : String → String → ℚ} {query : String}
    {choices : List String} {b : String} {s : ℚ}
    (h : extractOne scorer query choices = some (b, s)) : b ∈ choices := by
  rcases (extractOne_go_spec scorer query choices none b s h).1 with h1 | h1
  · cases h1
  · exact h1

theorem extractOne_le {scorer : String → String → ℚ} {query : String}
    {choices : List String} {b : String} {s : ℚ}
    (h : extractOne scorer query choices = some (b, s)) :
    ∀ c ∈ choices, scorer query c ≤ s :=
  (extractOne_go_spec scorer query choices none b s h).2.1

/-! ### C1: the fuzzy threshold -/

/-- C1: past the exact and alias tiers, the fuzzy tier accepts the
arg-max candidate of the scorer exactly when its score reaches the
threshold 85; on acceptance it returns that machine and appends exactly
one alias with `source="fuzzy"` and `confidence = score/100`; below the
threshold the fuzzy tier never answers (the outcome's tier is not 3). -/
theorem resolve_machine_fuzzy_threshold
    (scorer : String → String → ℚ)
    (oracle : Option (String → List String → Except Unit String))
    (db : DB) (raw : String) (use_ai_fallback : Bool) (best : String) (score : ℚ)
    (hblank : pyStrip raw ≠ "")
    (h1 : db.machines.filter (fun m => iexactEq m (pyStrip raw)) = [])
    (h2 : db.aliases.filter (fun a => iexactEq a.alias_text (pyStrip raw)) = [])
    (hext : extractOne scorer (pyStrip raw) db.machines = some (best, score)) :
    ∃ o, resolve_machine scorer oracle db (some raw) use_ai_fallback = .ok o ∧
      (o.tier = some 3 ↔ FUZZY_MATCH_THRESHOLD ≤ score) ∧
      (∀ c ∈ db.machines, scorer (pyStrip raw) c ≤ score) ∧
      (FUZZY_MATCH_THRESHOLD ≤ score →
        o = ⟨some best,
             { db with aliases :=
                 db.aliases ++ [⟨pyStrip raw, best, "fuzzy", score / 100⟩] },
             some 3, true, false⟩) := by
  have hmem : best ∈ db.machines := extractOne_mem hext
  have hmax := extractOne_le hext
  have hres : resolve_machine scorer oracle db (some raw) use_ai_fallback =
      fuzzyStep scorer oracle db (pyStrip raw) use_ai_fallback := by
    simp only [resolve_machine]
    rw [if_neg hblank, h1, h2]
  by_cases hsc : FUZZY_MATCH_THRESHOLD ≤ score
  · refine ⟨_, ?_, ?_, hmax, fun _ => rfl⟩
    · rw [hres]
      simp only [fuzzyStep, hext]
      rw [if_pos hsc, find?_beq_self hmem, any_beq_false_of_filter_iexact_nil h2]
      simp
    · simpa using hsc
  · have ht := aiStep_tier oracle db (pyStrip raw) db.machines use_ai_fallback true
    refine ⟨aiStep oracle db (pyStrip raw) db.machines use_ai_fallback true, ?_, ?_, hmax,
      fun h => absurd h hsc⟩
    · rw [hres]
      simp only [fuzzyStep, hext]
      rw [if_neg hsc]
    · rcases ht with ht | ht <;> rw [ht] <;> simp [hsc]

theorem resolve_machine_fuzzy_threshold_witness :
    pyStrip " Libary Anex " ≠ "" ∧
    (DB.mk ["Library Annex"] []).machines.filter
        (fun m => iexactEq m (pyStrip " Libary Anex ")) = [] ∧
    (DB.mk ["Library Annex"] []).aliases.filter
        (fun a => iexactEq a.alias_text (pyStrip " Libary Anex ")) = [] ∧
    extractOne (fun _ _ => 85) (pyStrip " Libary Anex ")
        (DB.mk ["Library Annex"] []).machines = some ("Library Annex", 85) ∧
    ∃ o, resolve_machine (fun _ _ => 85) none ⟨["Library Annex"], []⟩
          (some " Libary Anex ") false = .ok o ∧
      (o.tier = some 3 ↔ FUZZY_MATCH_THRESHOLD ≤ (85 : ℚ)) ∧
      (∀ c ∈ (DB.mk ["Library Annex"] []).machines,
        (fun (_ : String) (_ : String) => (85 : ℚ)) (pyStrip " Libary Anex ") c ≤ 85) ∧
      (FUZZY_MATCH_THRESHOLD ≤ (85 : ℚ) →
        o = ⟨some "Library Annex",
             { DB.mk ["Library Annex"] [] with
                aliases := (DB.mk ["Library Annex"] []).aliases ++
                  [⟨pyStrip " Libary Anex ", "Library Annex", "fuzzy", 85 / 100⟩] },
             some 3, true, false⟩) :=
  ⟨by decide, by decide, by decide, by decide,
   resolve_machine_fuzzy_threshold (fun _ _ => 85) none ⟨["Library Annex"], []⟩
     " Libary Anex " false "Library Annex" 85 (by decide) (by decide) (by decide)
     (by decide)⟩

/-! ### C10: `get_or_create_operator` -/

theorem get_or_create_operator_step (ops : List Operator) (n : Option String) (d : Bool)
    {op? : Option Operator} {c : Bool} {opsB : List Operator}
    (h : get_or_create_operator ops n d = .ok (op?, c, opsB)) :
    ops.length ≤ opsB.length ∧
    ∀ i (hi : i < ops.length),
      ∃ hi2 : i < opsB.length,
        (opsB.get ⟨i, hi2⟩).name = (ops.get ⟨i, hi⟩).name ∧
        ((ops.get ⟨i, hi⟩).is_driver = true → (opsB.get ⟨i, hi2⟩).is_driver = true) ∧
        (d = false → opsB.get ⟨i, hi2⟩ = ops.get ⟨i, hi⟩) := by
  rcases n with - | s
  · obtain ⟨-, -, rfl⟩ : none = op? ∧ c = false ∧ ops = opsB := by
      simpa [get_or_create_operator] using h
    exact ⟨le_refl _, fun i hi => ⟨hi, rfl, fun hd => hd, fun _ => rfl⟩⟩
  · by_cases hblank : pyStrip s = ""
    · obtain ⟨-, -, rfl⟩ : none = op? ∧ c = false ∧ ops = opsB := by
        simpa [get_or_create_operator, hblank] using h
      exact ⟨le_refl _, fun i hi => ⟨hi, rfl, fun hd => hd, fun _ => rfl⟩⟩
    · rcases hf : ops.filter (fun o => iexactEq o.name (pyStrip s)) with - | ⟨op, rest⟩
      · simp only [get_or_create_operator, hf] at h
        rw [if_neg hblank] at h
        obtain ⟨h1, h2, h3⟩ : _ ∧ _ ∧ _ := by simpa using h
        subst h3
        refine ⟨by simp, fun i hi => ?_⟩
        have hi2 : i < (ops ++ [(⟨pyStrip s, d⟩ : Operator)]).length := by
          simp
          omega
        have hget : (ops ++ [(⟨pyStrip s, d⟩ : Operator)]).get ⟨i, hi2⟩ = ops.get ⟨i, hi⟩ := by
          rw [List.get_eq_getElem, List.get_eq_getElem, List.getElem_append_left]
        exact ⟨hi2, by rw [hget], fun hd => by rw [hget]; exact hd, fun _ => hget⟩
      · rcases rest with - | ⟨op2, rest2⟩
        · by_cases hpromo : d = true ∧ op.is_driver = false
          · simp only [get_or_create_operator, hf] at h
            rw [if_neg hblank] at h
            rw [if_pos hpromo] at h
            obtain ⟨h1, h2, h3⟩ : _ ∧ _ ∧ _ := by simpa using h
            subst h3
            refine ⟨by simp, fun i hi => ?_⟩
            have hi2 : i < (ops.map (fun o => if iexactEq o.name (pyStrip s) then
                { o with is_driver := true } else o)).length := by simpa using hi
            have hget : (ops.map (fun o => if iexactEq o.name (pyStrip s) then
                { o with is_driver := true } else o)).get ⟨i, hi2⟩ =
                if iexactEq (ops.get ⟨i, hi⟩).name (pyStrip s) then
                  { ops.get ⟨i, hi⟩ with is_driver := true } else ops.get ⟨i, hi⟩ := by
              rw [List.get_eq_getElem, List.get_eq_getElem, List.getElem_map]
            refine ⟨hi2, ?_, ?_, fun hd => absurd hpromo.1 (by simp [hd])⟩
            · rw [hget]
              split <;> rfl
            · intro hd
              rw [hget]
              split
              · rfl
              · exact hd
          · simp only [get_or_create_operator, hf] at h
            rw [if_neg hblank] at h
            rw [if_neg hpromo] at h
            obtain ⟨h1, h2, h3⟩ : _ ∧ _ ∧ _ := by simpa using h
            subst h3
            exact ⟨le_refl _, fun i hi => ⟨hi, rfl, fun hd => hd, fun _ => rfl⟩⟩
        · simp only [get_or_create_operator, hf] at h
          rw [if_neg hblank] at h
          simp at h

theorem runOperatorCalls_mono (calls : List (Option String × Bool)) :
    ∀ ops ops2, runOperatorCalls calls ops = .ok ops2 →
    ∀ i (hi : i < ops.length), ∃ hi2 : i < ops2.length,
      ((ops.get ⟨i, hi⟩).is_driver = true → (ops2.get ⟨i, hi2⟩).is_driver = true) := by
  induction calls with
  | nil =>
    intro ops ops2 h i hi
    obtain rfl : ops = ops2 := by simpa [runOperatorCalls] using h
    exact ⟨hi, fun hd => hd⟩
  | cons call rest ih =>
    intro ops ops2 h i hi
    rcases call with ⟨n, d⟩
    rw [runOperatorCalls] at h
    rcases hg : get_or_create_operator ops n d with e | res
    · rw [hg] at h; cases h
    · rcases res with ⟨op?, c, opsB⟩
      rw [hg] at h
      obtain ⟨-, hstep⟩ := get_or_create_operator_step ops n d hg
      obtain ⟨hi2, -, hmono, -⟩ := hstep i hi
      obtain ⟨hi3, hmono2⟩ := ih opsB ops2 h i hi2
      exact ⟨hi3, fun hd => hmono2 (hmono hd)⟩

/-- C10: `get_or_create_operator` never demotes a driver, and does
promote.  A blank or `None` name returns `(None, False)` and leaves the
store untouched.  A call with `is_driver=True` whose cleaned name matches
exactly one existing non-driver row returns that operator promoted and
sets the flag on the matching row (the `operator.save(update_fields=...)`
branch), and any call with `is_driver=True` that returns an operator
returns one whose flag is set.  A single call preserves every existing
operator's name, never turns an `is_driver=True` flag off, and with
`is_driver=False` leaves existing rows entirely unchanged.  Across any
sequence of calls a flag once `True` stays `True`. -/
theorem get_or_create_operator_never_demotes
    (ops : List Operator) (calls : List (Option String × Bool)) (ops2 : List Operator)
    (hrun : runOperatorCalls calls ops = .ok ops2) :
    (∀ (n : Option String) (d : Bool), (n = none ∨ ∃ s, n = some s ∧ pyStrip s = "") →
      get_or_create_operator ops n d = .ok (none, false, ops)) ∧
    (∀ (s : String) (op : Operator), pyStrip s ≠ "" →
      ops.filter (fun o => iexactEq o.name (pyStrip s)) = [op] → op.is_driver = false →
      get_or_create_operator ops (some s) true =
        .ok (some { op with is_driver := true }, false,
             ops.map (fun o => if iexactEq o.name (pyStrip s) then
               { o with is_driver := true } else o))) ∧
    (∀ (n : Option String) (op2 : Operator) (c : Bool) (opsB : List Operator),
      get_or_create_operator ops n true = .ok (some op2, c, opsB) →
      op2.is_driver = true) ∧
    (∀ n d (op? : Option Operator) (c : Bool) (opsB : List Operator),
      get_or_create_operator ops n d = .ok (op?, c, opsB) →
      ∀ i (hi : i < ops.length), ∃ hi2 : i < opsB.length,
        (opsB.get ⟨i, hi2⟩).name = (ops.get ⟨i, hi⟩).name ∧
        ((ops.get ⟨i, hi⟩).is_driver = true → (opsB.get ⟨i, hi2⟩).is_driver = true) ∧
        (d = false → opsB.get ⟨i, hi2⟩ = ops.get ⟨i, hi⟩)) ∧
    (∀ i (hi : i < ops.length), ∃ hi2 : i < ops2.length,
      ((ops.get ⟨i, hi⟩).is_driver = true → (ops2.get ⟨i, hi2⟩).is_driver = true)) := by
  refine ⟨?_, ?_, ?_, ?_, runOperatorCalls_mono calls ops ops2 hrun⟩
  · rintro n d (rfl | ⟨s, rfl, hblank⟩)
    · rfl
    · simp [get_or_create_operator, hblank]
  · intro s op hblank hf hop
    simp only [get_or_create_operator, hf]
    rw [if_neg hblank, if_pos ⟨trivial, hop⟩]
  · intro n op2 c opsB h
    rcases n with - | s
    · simp [get_or_create_operator] at h
    · by_cases hblank : pyStrip s = ""
      · simp [get_or_create_operator, hblank] at h
      · rcases hf : ops.filter (fun o => iexactEq o.name (pyStrip s)) with - | ⟨op, rest⟩
        · simp only [get_or_create_operator, hf] at h
          rw [if_neg hblank] at h
          injection h with h1
          injection h1 with h2 h3
          injection h2 with h4
          rw [← h4]
        · rcases rest with - | ⟨op3, rest2⟩
          · simp only [get_or_create_operator, hf] at h
            rw [if_neg hblank] at h
            by_cases hpromo : True ∧ op.is_driver = false
            · rw [if_pos hpromo] at h
              injection h with h1
              injection h1 with h2 h3
              injection h2 with h4
              rw [← h4]
            · rw [if_neg hpromo] at h
              injection h with h1
              injection h1 with h2 h3
              injection h2 with h4
              rw [← h4]
              cases hx : op.is_driver with
              | false => exact absurd ⟨trivial, hx⟩ hpromo
              | true => rfl
          · simp only [get_or_create_operator, hf] at h
            rw [if_neg hblank] at h
            simp at h
  · intro n d op? c opsB h
    exact (get_or_create_operator_step ops n d h).2

theorem get_or_create_operator_never_demotes_witness :
    runOperatorCalls [(some " BOB ", true), (some "Ann", false)]
        [⟨"Dan", true⟩, ⟨"Bob", false⟩] =
      .ok [⟨"Dan", true⟩, ⟨"Bob", true⟩, ⟨"Ann", false⟩] ∧
    ((∀ (n : Option String) (d : Bool),
        (n = none ∨ ∃ s, n = some s ∧ pyStrip s = "") →
        get_or_create_operator [⟨"Dan", true⟩, ⟨"Bob", false⟩] n d =
          .ok (none, false, [⟨"Dan", true⟩, ⟨"Bob", false⟩])) ∧
      (∀ (s : String) (op : Operator), pyStrip s ≠ "" →
        ([⟨"Dan", true⟩, ⟨"Bob", false⟩] : List Operator).filter
            (fun o => iexactEq o.name (pyStrip s)) = [op] →
        op.is_driver = false →
        get_or_create_operator [⟨"Dan", true⟩, ⟨"Bob", false⟩] (some s) true =
          .ok (some { op with is_driver := true }, false,
               ([⟨"Dan", true⟩, ⟨"Bob", false⟩] : List Operator).map
                 (fun o => if iexactEq o.name (pyStrip s) then
                   { o with is_driver := true } else o))) ∧
      (∀ (n : Option String) (op2 : Operator) (c : Bool) (opsB : List Operator),
        get_or_create_operator [⟨"Dan", true⟩, ⟨"Bob", false⟩] n true =
          .ok (some op2, c, opsB) →
        op2.is_driver = true) ∧
      (∀ n d (op? : Option Operator) (c : Bool) (opsB : List Operator),
        get_or_create_operator [⟨"Dan", true⟩, ⟨"Bob", false⟩] n d = .ok (op?, c, opsB) →
        ∀ i (hi : i < (([⟨"Dan", true⟩, ⟨"Bob", false⟩] : List Operator)).length),
          ∃ hi2 : i < opsB.length,
            (opsB.get ⟨i, hi2⟩).name =
              (([⟨"Dan", true⟩, ⟨"Bob", false⟩] : List Operator).get ⟨i, hi⟩).name ∧
            ((([⟨"Dan", true⟩, ⟨"Bob", false⟩] : List Operator).get
                ⟨i, hi⟩).is_driver = true →
              (opsB.get ⟨i, hi2⟩).is_driver = true) ∧
            (d = false →
              opsB.get ⟨i, hi2⟩ =
                ([⟨"Dan", true⟩, ⟨"Bob", false⟩] : List Operator).get ⟨i, hi⟩)) ∧
      (∀ i (hi : i < (([⟨"Dan", true⟩, ⟨"Bob", false⟩] : List Operator)).length),
        ∃ hi2 : i <
            (([⟨"Dan", true⟩, ⟨"Bob", true⟩, ⟨"Ann", false⟩] : List Operator)).length,
          ((([⟨"Dan", true⟩, ⟨"Bob", false⟩] : List Operator).get
              ⟨i, hi⟩).is_driver = true →
            (([⟨"Dan", true⟩, ⟨"Bob", true⟩, ⟨"Ann", false⟩] : List Operator).get
              ⟨i, hi2⟩).is_driver = true))) :=
  ⟨rfl,
   get_or_create_operator_never_demotes [⟨"Dan", true⟩, ⟨"Bob", false⟩]
     [(some " BOB ", true), (some "Ann", false)]
     [⟨"Dan", true⟩, ⟨"Bob", true⟩, ⟨"Ann", false⟩] rfl⟩

/-! ### C4: idempotence of resolution -/

theorem ai_resolve_machine_some
    (oracle : Option (String → List String → Except Unit String))
    (db : DB) (input_name : String) (valid : List String)
    {m : String} {db2 : DB} {called : Bool}
    (h : ai_resolve_machine oracle db input_name valid = (some m, db2, called)) :
    db2 = { db with aliases := db.aliases ++ [⟨input_name, m, "ai", 8/10⟩] } ∧
    called = true ∧
    db.aliases.any (fun a => a.alias_text == input_name) = false ∧
    m ∈ db.machines := by
  rcases oracle with - | gen
  · simp [ai_resolve_machine] at h
  · rcases hg : gen input_name valid with e | text
    · simp only [ai_resolve_machine, hg] at h
      simp at h
    · simp only [ai_resolve_machine, hg] at h
      by_cases hcond : pyStrip text ≠ "" ∧ pyStrip text ≠ "None" ∧ pyStrip text ∈ valid
      · rw [if_pos hcond] at h
        rcases hf : db.machines.find? (fun x => x == pyStrip text) with - | machine
        · simp only [hf] at h
          simp at h
        · simp only [hf] at h
          by_cases hany : db.aliases.any (fun a => a.alias_text == input_name) = true
          · rw [if_pos hany] at h
            simp at h
          · rw [if_neg hany] at h
            obtain ⟨hm, hdb, hcall⟩ : _ ∧ _ ∧ _ := by simpa using h
            refine ⟨?_, ?_, Bool.eq_false_iff.mpr hany, ?_⟩
            · rw [← hdb, hm]
            · rw [← hcall]
            · exact hm ▸ List.mem_of_find?_eq_some hf
      · rw [if_neg hcond] at h
        simp at h

theorem aiStep_tier4
    (oracle : Option (String → List String → Except Unit String))
    (db : DB) (clean_name : String) (valid : List String)
    (use_ai : Bool) (sc : Bool) {o : Outcome}
    (h : aiStep oracle db clean_name valid use_ai sc = o) (ht : o.tier = some 4) :
    ∃ m, o = ⟨some m, { db with aliases := db.aliases ++ [⟨clean_name, m, "ai", 8/10⟩] },
        some 4, sc, true⟩ ∧
      db.aliases.any (fun a => a.alias_text == clean_name) = false ∧
      m ∈ db.machines := by
  unfold aiStep at h
  split at h
  · rcases hai : ai_resolve_machine oracle db clean_name valid with ⟨r, db2, called⟩
    rcases r with - | m
    · simp only [hai] at h
      rw [← h] at ht
      simp at ht
    · simp only [hai] at h
      obtain ⟨hdb2, hcalled, hany, hmem⟩ := ai_resolve_machine_some oracle db clean_name valid hai
      subst hdb2
      subst hcalled
      exact ⟨m, h.symm, hany, hmem⟩
  · rw [← h] at ht
    simp at ht

theorem resolve_machine_second_call
    (scorer : String → String → ℚ)
    (oracle : Option (String → List String → Except Unit String))
    (db : DB) (raw : String) (m src : String) (conf : ℚ)
    (hblank : pyStrip raw ≠ "")
    (h1 : db.machines.filter (fun x => iexactEq x (pyStrip raw)) = [])
    (h2 : db.aliases.filter (fun a => iexactEq a.alias_text (pyStrip raw)) = []) :
    resolve_machine scorer oracle
        ⟨db.machines, db.aliases ++ [⟨pyStrip raw, m, src, conf⟩]⟩ (some raw) true =
      .ok ⟨some m, ⟨db.machines, db.aliases ++ [⟨pyStrip raw, m, src, conf⟩]⟩,
           some 2, false, false⟩ := by
  have hnew : List.filter (fun a => iexactEq a.alias_text (pyStrip raw))
      [(⟨pyStrip raw, m, src, conf⟩ : MachineAlias)] =
      [⟨pyStrip raw, m, src, conf⟩] := by
    simp [iexactEq_self]
  simp only [resolve_machine, List.filter_append, h1, h2, hnew, List.nil_append]
  rw [if_neg hblank]

/-- C4: if a non-blank raw name misses the exact and alias tiers and the
first `resolve_machine` call succeeds at the fuzzy (tier 3) or AI (tier 4)
tier, then exactly one alias for the trimmed name now exists, and a second
call with the same raw name returns the same machine from the alias tier
(tier 2), leaves the store unchanged, and invokes neither the fuzzy scorer
nor the oracle. -/
theorem resolve_machine_idempotent
    (scorer : String → String → ℚ)
    (oracle : Option (String → List String → Except Unit String))
    (db : DB) (raw : String) (o : Outcome)
    (hblank : pyStrip raw ≠ "")
    (h1 : db.machines.filter (fun x => iexactEq x (pyStrip raw)) = [])
    (h2 : db.aliases.filter (fun a => iexactEq a.alias_text (pyStrip raw)) = [])
    (hrun : resolve_machine scorer oracle db (some raw) true = .ok o)
    (htier : o.tier = some 3 ∨ o.tier = some 4) :
    ∃ m src conf, o.result = some m ∧
      o.db.machines = db.machines ∧
      o.db.aliases = db.aliases ++ [⟨pyStrip raw, m, src, conf⟩] ∧
      (o.db.aliases.filter (fun a => iexactEq a.alias_text (pyStrip raw))).length = 1 ∧
      resolve_machine scorer oracle o.db (some raw) true =
        .ok ⟨some m, o.db, some 2, false, false⟩ := by
  have hres : resolve_machine scorer oracle db (some raw) true =
      fuzzyStep scorer oracle db (pyStrip raw) true := by
    simp only [resolve_machine]
    rw [if_neg hblank, h1, h2]
  rw [hres] at hrun
  have aiCase : ∀ sc : Bool,
      aiStep oracle db (pyStrip raw) db.machines true sc = o →
      ∃ m src conf, o.result = some m ∧
        o.db.machines = db.machines ∧
        o.db.aliases = db.aliases ++ [⟨pyStrip raw, m, src, conf⟩] ∧
        (o.db.aliases.filter (fun a => iexactEq a.alias_text (pyStrip raw))).length = 1 ∧
        resolve_machine scorer oracle o.db (some raw) true =
          .ok ⟨some m, o.db, some 2, false, false⟩ := by
    intro sc ho
    rcases htier with ht | ht
    · rcases aiStep_tier oracle db (pyStrip raw) db.machines true sc with h4 | h4 <;>
        rw [ho, ht] at h4 <;> simp at h4
    · obtain ⟨m, hoeq, hany, hmem⟩ :=
        aiStep_tier4 oracle db (pyStrip raw) db.machines true sc ho ht
      subst hoeq
      refine ⟨m, "ai", 8/10, rfl, rfl, rfl, ?_, ?_⟩
      · simp [List.filter_append, h2, iexactEq_self]
      · exact resolve_machine_second_call scorer oracle db raw m "ai" (8/10) hblank h1 h2
  rcases hext : extractOne scorer (pyStrip raw) db.machines with - | ⟨best, score⟩
  · simp only [fuzzyStep, hext] at hrun
    injection hrun with ho
    exact aiCase false ho
  · simp only [fuzzyStep, hext] at hrun
    by_cases hsc : FUZZY_MATCH_THRESHOLD ≤ score
    · rw [if_pos hsc, find?_beq_self (extractOne_mem hext),
        any_beq_false_of_filter_iexact_nil h2] at hrun
      dsimp only at hrun
      injection hrun with ho
      subst ho
      refine ⟨best, "fuzzy", score / 100, rfl, rfl, rfl, ?_, ?_⟩
      · simp [List.filter_append, h2, iexactEq_self]
      · exact resolve_machine_second_call scorer oracle db raw best "fuzzy" (score / 100)
          hblank h1 h2
    · rw [if_neg hsc] at hrun
      injection hrun with ho
      exact aiCase true ho

theorem resolve_machine_idempotent_witness :
    pyStrip " Libary Anex " ≠ "" ∧
    (DB.mk ["Library Annex"] []).machines.filter
        (fun x => iexactEq x (pyStrip " Libary Anex ")) = [] ∧
    (DB.mk ["Library Annex"] []).aliases.filter
        (fun a => iexactEq a.alias_text (pyStrip " Libary Anex ")) = [] ∧
    resolve_machine (fun _ _ => 90) none ⟨["Library Annex"], []⟩ (some " Libary Anex ") true =
      .ok ⟨some "Library Annex",
           ⟨["Library Annex"], [⟨"Libary Anex", "Library Annex", "fuzzy", 90/100⟩]⟩,
           some 3, true, false⟩ ∧
    (∃ m src conf,
      (Outcome.mk (some "Library Annex")
        ⟨["Library Annex"], [⟨"Libary Anex", "Library Annex", "fuzzy", 90/100⟩]⟩
        (some 3) true false).result = some m ∧
      (Outcome.mk (some "Library Annex")
        ⟨["Library Annex"], [⟨"Libary Anex", "Library Annex", "fuzzy", 90/100⟩]⟩
        (some 3) true false).db.machines = (DB.mk ["Library Annex"] []).machines ∧
      (Outcome.mk (some "Library Annex")
        ⟨["Library Annex"], [⟨"Libary Anex", "Library Annex", "fuzzy", 90/100⟩]⟩
        (some 3) true false).db.aliases =
        (DB.mk ["Library Annex"] []).aliases ++ [⟨pyStrip " Libary Anex ", m, src, conf⟩] ∧
      ((Outcome.mk (some "Library Annex")
        ⟨["Library Annex"], [⟨"Libary Anex", "Library Annex", "fuzzy", 90/100⟩]⟩
        (some 3) true false).db.aliases.filter
          (fun a => iexactEq a.alias_text (pyStrip " Libary Anex "))).length = 1 ∧
      resolve_machine (fun _ _ => 90) none
          (Outcome.mk (some "Library Annex")
            ⟨["Library Annex"], [⟨"Libary Anex", "Library Annex", "fuzzy", 90/100⟩]⟩
            (some 3) true false).db (some " Libary Anex ") true =
        .ok ⟨some m,
             (Outcome.mk (some "Library Annex")
               ⟨["Library Annex"], [⟨"Libary Anex", "Library Annex", "fuzzy", 90/100⟩]⟩
               (some 3) true false).db,
             some 2, false, false⟩) :=
  ⟨by decide, by decide, by decide, rfl,
   resolve_machine_idempotent (fun _ _ => 90) none ⟨["Library Annex"], []⟩ " Libary Anex "
     ⟨some "Library Annex",
      ⟨["Library Annex"], [⟨"Libary Anex", "Library Annex", "fuzzy", 90/100⟩]⟩,
      some 3, true, false⟩
     (by decide) (by decide) (by decide) rfl (Or.inl rfl)⟩

/-! ### C9: alias uniqueness -/

theorem ai_resolve_machine_failure
    (oracle : Option (String → List String → Except Unit String))
    (db : DB) (input_name : String) (valid : List String)
    {db2 : DB} {called : Bool}
    (h : ai_resolve_machine oracle db input_name valid = (none, db2, called)) :
    db2 = db := by
  rcases oracle with - | gen
  · obtain ⟨hdb, -⟩ : _ ∧ _ := by simpa [ai_resolve_machine] using h
    exact hdb.symm
  · rcases hg : gen input_name valid with e | text
    · simp only [ai_resolve_machine, hg] at h
      obtain ⟨hdb, -⟩ : _ ∧ _ := by simpa using h
      exact hdb.symm
    · simp only [ai_resolve_machine, hg] at h
      by_cases hcond : pyStrip text ≠ "" ∧ pyStrip text ≠ "None" ∧ pyStrip text ∈ valid
      · rw [if_pos hcond] at h
        rcases hf : db.machines.find? (fun x => x == pyStrip text) with - | machine
        · simp only [hf] at h
          obtain ⟨hdb, -⟩ : _ ∧ _ := by simpa using h
          exact hdb.symm
        · simp only [hf] at h
          by_cases hany : db.aliases.any (fun a => a.alias_text == input_name) = true
          · rw [if_pos hany] at h
            obtain ⟨hdb, -⟩ : _ ∧ _ := by simpa using h
            exact hdb.symm
          · rw [if_neg hany] at h
            simp at h
      · rw [if_neg hcond] at h
        obtain ⟨hdb, -⟩ : _ ∧ _ := by simpa using h
        exact hdb.symm

theorem aiStep_shape
    (oracle : Option (String → List String → Except Unit String))
    (db : DB) (clean_name : String) (valid : List String)
    (use_ai : Bool) (sc : Bool) :
    ((aiStep oracle db clean_name valid use_ai sc).db.machines = db.machines) ∧
    ((aiStep oracle db clean_name valid use_ai sc).db.aliases = db.aliases ∨
      ∃ m, (aiStep oracle db clean_name valid use_ai sc).db.aliases =
        db.aliases ++ [⟨clean_name, m, "ai", 8/10⟩]) := by
  unfold aiStep
  split
  · rcases hai : ai_resolve_machine oracle db clean_name valid with ⟨r, db2, called⟩
    rcases r with - | m
    · simp only [hai]
      have hdb : db2 = db := ai_resolve_machine_failure oracle db clean_name valid hai
      subst hdb
      exact ⟨rfl, Or.inl rfl⟩
    · simp only [hai]
      obtain ⟨hdb2, -, -, -⟩ := ai_resolve_machine_some oracle db clean_name valid hai
      subst hdb2
      exact ⟨rfl, Or.inr ⟨m, rfl⟩⟩
  · exact ⟨rfl, Or.inl rfl⟩

theorem resolve_machine_aliases_shape
    (scorer : String → String → ℚ)
    (oracle : Option (String → List String → Except Unit String))
    (db : DB) (input_name : Option String) (use_ai : Bool) {o : Outcome}
    (h : resolve_machine scorer oracle db input_name use_ai = .ok o) :
    o.db.machines = db.machines ∧
    (o.db.aliases = db.aliases ∨
      ∃ new : MachineAlias, o.db.aliases = db.aliases ++ [new] ∧
        ∀ a ∈ db.aliases, iexactEq a.alias_text new.alias_text = false) := by
  rcases input_name with - | raw
  · injection h with ho
    subst ho
    exact ⟨rfl, Or.inl rfl⟩
  · simp only [resolve_machine] at h
    by_cases hblank : pyStrip raw = ""
    · rw [if_pos hblank] at h
      injection h with ho
      subst ho
      exact ⟨rfl, Or.inl rfl⟩
    · rw [if_neg hblank] at h
      rcases hf1 : db.machines.filter (fun m => iexactEq m (pyStrip raw)) with - | ⟨m1, r1⟩
      · simp only [hf1] at h
        rcases hf2 : db.aliases.filter (fun a => iexactEq a.alias_text (pyStrip raw))
          with - | ⟨a1, r2⟩
        · simp only [hf2] at h
          have hfresh : ∀ a ∈ db.aliases, iexactEq a.alias_text (pyStrip raw) = false := by
            rw [List.filter_eq_nil_iff] at hf2
            intro a ha
            exact Bool.eq_false_iff.mpr (hf2 a ha)
          rcases hext : extractOne scorer (pyStrip raw) db.machines with - | ⟨best, score⟩
          · simp only [fuzzyStep, hext] at h
            injection h with ho
            obtain ⟨hm, hsh⟩ := aiStep_shape oracle db (pyStrip raw) db.machines use_ai false
            rw [ho] at hm hsh
            refine ⟨hm, ?_⟩
            rcases hsh with hsh | ⟨m, hsh⟩
            · exact Or.inl hsh
            · exact Or.inr ⟨⟨pyStrip raw, m, "ai", 8/10⟩, hsh, hfresh⟩
          · simp only [fuzzyStep, hext] at h
            by_cases hsc : FUZZY_MATCH_THRESHOLD ≤ score
            · rw [if_pos hsc] at h
              rcases hfind : db.machines.find? (fun x => x == best) with - | machine
              · simp only [hfind] at h
                cases h
              · simp only [hfind] at h
                by_cases hany : db.aliases.any (fun a => a.alias_text == pyStrip raw) = true
                · rw [if_pos hany] at h
                  cases h
                · rw [if_neg hany] at h
                  injection h with ho
                  subst ho
                  exact ⟨rfl, Or.inr ⟨⟨pyStrip raw, machine, "fuzzy", score / 100⟩, rfl, hfresh⟩⟩
            · rw [if_neg hsc] at h
              injection h with ho
              obtain ⟨hm, hsh⟩ := aiStep_shape oracle db (pyStrip raw) db.machines use_ai true
              rw [ho] at hm hsh
              refine ⟨hm, ?_⟩
              rcases hsh with hsh | ⟨m, hsh⟩
              · exact Or.inl hsh
              · exact Or.inr ⟨⟨pyStrip raw, m, "ai", 8/10⟩, hsh, hfresh⟩
        · rcases r2 with - | ⟨a2, r3⟩
          · simp only [hf2] at h
            injection h with ho
            subst ho
            exact ⟨rfl, Or.inl rfl⟩
          · simp only [hf2] at h
            cases h
      · rcases r1 with - | ⟨m2, r2⟩
        · simp only [hf1] at h
          injection h with ho
          subst ho
          exact ⟨rfl, Or.inl rfl⟩
        · simp only [hf1] at h
          cases h

theorem ciUnique_append_of_fresh {l : List MachineAlias} {new : MachineAlias}
    (hu : aliasesCIUnique l)
    (hfresh : ∀ a ∈ l, iexactEq a.alias_text new.alias_text = false) :
    aliasesCIUnique (l ++ [new]) := by
  refine List.pairwise_append.mpr ⟨hu, by simp, ?_⟩
  intro a ha b hb
  rw [List.mem_singleton] at hb
  subst hb
  intro hcontra
  have hf := hfresh a ha
  rw [iexactEq, hcontra] at hf
  simp at hf

theorem csUnique_append_of_any_false {l : List MachineAlias} {new : MachineAlias}
    (hu : aliasesCSUnique l)
    (hany : l.any (fun a => a.alias_text == new.alias_text) = false) :
    aliasesCSUnique (l ++ [new]) := by
  refine List.pairwise_append.mpr ⟨hu, by simp, ?_⟩
  intro a ha b hb
  rw [List.mem_singleton] at hb
  subst hb
  rw [List.any_eq_false] at hany
  intro hcontra
  exact hany a ha (by simp [hcontra])

theorem applyBatchEntry_shape (valid : List String)
    (st : DB × List (String × Option String)) (e : String × Option String) :
    (applyBatchEntry valid st e).1.machines = st.1.machines ∧
    ((applyBatchEntry valid st e).1.aliases = st.1.aliases ∨
      ∃ m, (applyBatchEntry valid st e).1.aliases =
          st.1.aliases ++ [⟨e.1, m, "ai_batch", 85/100⟩] ∧
        st.1.aliases.any (fun a => a.alias_text == e.1) = false) := by
  rcases st with ⟨db, res⟩
  rcases e with ⟨raw, v⟩
  rcases v with - | r
  · exact ⟨rfl, Or.inl rfl⟩
  · unfold applyBatchEntry
    dsimp only
    by_cases hcond : r ≠ "" ∧ r ∈ valid
    · rw [if_pos hcond]
      rcases hfind : db.machines.find? (fun m => m == r) with - | machine
      · simp [hfind]
      · simp only [hfind]
        by_cases hany : db.aliases.any (fun a => a.alias_text == raw) = true
        · rw [if_pos hany]
          exact ⟨rfl, Or.inl rfl⟩
        · rw [if_neg hany]
          exact ⟨rfl, Or.inr ⟨machine, rfl, Bool.eq_false_iff.mpr hany⟩⟩
    · rw [if_neg hcond]
      exact ⟨rfl, Or.inl rfl⟩

theorem processChunkEntries_shape (valid : List String)
    (entries : List (String × Option String)) :
    ∀ (db : DB) (res : List (String × Option String)),
      (processChunkEntries valid entries db res).1.machines = db.machines ∧
      (∃ t, (processChunkEntries valid entries db res).1.aliases = db.aliases ++ t) ∧
      (aliasesCSUnique db.aliases →
        aliasesCSUnique (processChunkEntries valid entries db res).1.aliases) := by
  induction entries with
  | nil =>
    intro db res
    exact ⟨rfl, ⟨[], by simp [processChunkEntries]⟩, fun hu => hu⟩
  | cons e rest ih =>
    intro db res
    have heq : processChunkEntries valid (e :: rest) db res =
        processChunkEntries valid rest (applyBatchEntry valid (db, res) e).1
          (applyBatchEntry valid (db, res) e).2 := by
      unfold processChunkEntries
      rw [List.foldl_cons]
    obtain ⟨hm0, hsh⟩ := applyBatchEntry_shape valid (db, res) e
    obtain ⟨hm, ⟨t, ht⟩, hu⟩ :=
      ih (applyBatchEntry valid (db, res) e).1 (applyBatchEntry valid (db, res) e).2
    rw [heq]
    refine ⟨by rw [hm, hm0], ?_, ?_⟩
    · rcases hsh with hsh | ⟨m, hsh, -⟩
      · exact ⟨t, by rw [ht, hsh]⟩
      · exact ⟨⟨e.1, m, "ai_batch", 85/100⟩ :: t, by rw [ht, hsh, List.append_assoc]; rfl⟩
    · intro hu0
      apply hu
      rcases hsh with hsh | ⟨m, hsh, hany⟩
      · rw [hsh]; exact hu0
      · rw [hsh]
        exact csUnique_append_of_any_false hu0 hany

theorem batchAiLoop_shape
    (gen : List String → Except Unit (List (String × Option String)))
    (valid : List String) (cs : List (List String)) :
    ∀ (db : DB) (res : List (String × Option String)),
      (batchAiLoop gen valid cs db res).1.machines = db.machines ∧
      (∃ t, (batchAiLoop gen valid cs db res).1.aliases = db.aliases ++ t) ∧
      (aliasesCSUnique db.aliases →
        aliasesCSUnique (batchAiLoop gen valid cs db res).1.aliases) := by
  induction cs with
  | nil =>
    intro db res
    exact ⟨rfl, ⟨[], by simp [batchAiLoop]⟩, fun h => h⟩
  | cons c rest ih =>
    intro db res
    rcases hg : gen c with u | entries
    · have heq : batchAiLoop gen valid (c :: rest) db res =
          batchAiLoop gen valid rest db (c.foldl (fun r n => dictInsert r n none) res) := by
        rw [batchAiLoop, hg]
      rw [heq]
      exact ih db _
    · have heq : batchAiLoop gen valid (c :: rest) db res =
          batchAiLoop gen valid rest (processChunkEntries valid entries db res).1
            (processChunkEntries valid entries db res).2 := by
        rw [batchAiLoop, hg]
      obtain ⟨hm1, ⟨t1, ht1⟩, hu1⟩ := processChunkEntries_shape valid entries db res
      obtain ⟨hm2, ⟨t2, ht2⟩, hu2⟩ :=
        ih (processChunkEntries valid entries db res).1
          (processChunkEntries valid entries db res).2
      rw [heq]
      exact ⟨by rw [hm2, hm1], ⟨t1 ++ t2, by rw [ht2, ht1, List.append_assoc]⟩,
        fun hu => hu2 (hu1 hu)⟩

theorem batch_ai_resolve_machines_shape
    (batchOracle : Option (List String → Except Unit (List (String × Option String))))
    (db : DB) (raw_names : List String) :
    ((batch_ai_resolve_machines batchOracle db raw_names).1.machines = db.machines) ∧
    (∃ t, (batch_ai_resolve_machines batchOracle db raw_names).1.aliases =
      db.aliases ++ t) ∧
    (aliasesCSUnique db.aliases →
      aliasesCSUnique (batch_ai_resolve_machines batchOracle db raw_names).1.aliases) := by
  unfold batch_ai_resolve_machines
  by_cases hm : db.machines = []
  · rw [if_pos hm]
    exact ⟨rfl, ⟨[], by simp⟩, fun h => h⟩
  · rw [if_neg hm]
    rcases batchOracle with - | gen
    · exact ⟨rfl, ⟨[], by simp⟩, fun h => h⟩
    · exact batchAiLoop_shape gen db.machines (chunksOf BATCH_SIZE raw_names) db []

/-- C9 counterexample: the batch tier's `get_or_create` is keyed on the
exact alias text, so with an existing alias `"FOO" -> M1` a batch call for
the raw name `"foo"` (same text up to case) inserts a second alias
`"foo" -> M2`: case-insensitive uniqueness of `alias_text` is not an
invariant of the store. -/
theorem alias_ci_uniqueness_counterexample :
    aliasesCIUnique [(⟨"FOO", "M1", "manual", 1⟩ : MachineAlias)] ∧
    (batch_ai_resolve_machines (some (fun _ => .ok [("foo", some "M2")]))
        ⟨["M1", "M2"], [⟨"FOO", "M1", "manual", 1⟩]⟩ ["foo"]).1.aliases =
      [⟨"FOO", "M1", "manual", 1⟩, ⟨"foo", "M2", "ai_batch", 85/100⟩] ∧
    ¬ aliasesCIUnique
        [(⟨"FOO", "M1", "manual", 1⟩ : MachineAlias),
         ⟨"foo", "M2", "ai_batch", 85/100⟩] :=
  ⟨by decide, rfl, by decide⟩

/-- C9 amended: the alias store is append-only (no call rewrites or
removes an existing row, so no alias is ever remapped to a different
machine).  The single-item tiers preserve case-insensitive uniqueness of
`alias_text` (their writes are guarded by the tier-2 `__iexact` miss);
the batch tier's `get_or_create` is keyed on the exact text, so it
preserves only case-sensitive uniqueness and may insert an alias
differing from an existing one only by case. -/
theorem alias_uniqueness_amended :
    (∀ (scorer : String → String → ℚ)
       (oracle : Option (String → List String → Except Unit String))
       (db : DB) (input_name : Option String) (use_ai : Bool) (o : Outcome),
      resolve_machine scorer oracle db input_name use_ai = .ok o →
      (∃ t, o.db.aliases = db.aliases ++ t) ∧
      (aliasesCIUnique db.aliases → aliasesCIUnique o.db.aliases)) ∧
    (∀ (gen : Option (List String → Except Unit (List (String × Option String))))
       (db : DB) (raw_names : List String),
      (∃ t, (batch_ai_resolve_machines gen db raw_names).1.aliases = db.aliases ++ t) ∧
      (aliasesCSUnique db.aliases →
        aliasesCSUnique (batch_ai_resolve_machines gen db raw_names).1.aliases)) := by
  constructor
  · intro scorer oracle db input use_ai o h
    obtain ⟨-, hsh⟩ := resolve_machine_aliases_shape scorer oracle db input use_ai h
    rcases hsh with hsh | ⟨new, hsh, hfresh⟩
    · exact ⟨⟨[], by simp [hsh]⟩, fun hu => hsh ▸ hu⟩
    · exact ⟨⟨[new], hsh⟩, fun hu => hsh ▸ ciUnique_append_of_fresh hu hfresh⟩
  · intro gen db names
    obtain ⟨-, happ, hu⟩ := batch_ai_resolve_machines_shape gen db names
    exact ⟨happ, hu⟩

theorem alias_uniqueness_amended_witness :
    resolve_machine (fun _ _ => 90) none ⟨["Library Annex"], []⟩ (some "Libary Anex") true =
      .ok ⟨some "Library Annex",
           ⟨["Library Annex"], [⟨"Libary Anex", "Library Annex", "fuzzy", 90/100⟩]⟩,
           some 3, true, false⟩ ∧
    (∃ t, (Outcome.mk (some "Library Annex")
        ⟨["Library Annex"], [⟨"Libary Anex", "Library Annex", "fuzzy", 90/100⟩]⟩
        (some 3) true false).db.aliases = (DB.mk ["Library Annex"] []).aliases ++ t) ∧
    (aliasesCIUnique (DB.mk ["Library Annex"] []).aliases →
      aliasesCIUnique (Outcome.mk (some "Library Annex")
        ⟨["Library Annex"], [⟨"Libary Anex", "Library Annex", "fuzzy", 90/100⟩]⟩
        (some 3) true false).db.aliases) :=
  ⟨rfl,
   (alias_uniqueness_amended.1 (fun _ _ => 90) none ⟨["Library Annex"], []⟩
      (some "Libary Anex") true
      ⟨some "Library Annex",
       ⟨["Library Annex"], [⟨"Libary Anex", "Library Annex", "fuzzy", 90/100⟩]⟩,
       some 3, true, false⟩ rfl).1,
   (alias_uniqueness_amended.1 (fun _ _ => 90) none ⟨["Library Annex"], []⟩
      (some "Libary Anex") true
      ⟨some "Library Annex",
       ⟨["Library Annex"], [⟨"Libary Anex", "Library Annex", "fuzzy", 90/100⟩]⟩,
       some 3, true, false⟩ rfl).2⟩

/-! ### C6 and C7: the batch resolver's result dictionary -/

theorem lookup_dictInsert_self (d : List (String × Option String)) (k : String)
    (v : Option String) : (dictInsert d k v).lookup k = some v := by
  induction d with
  | nil => simp [dictInsert, List.lookup]
  | cons p rest ih =>
    rcases p with ⟨k2, v2⟩
    by_cases heq : k2 = k
    · subst heq
      simp [dictInsert, List.lookup]
    · have h1 : (k2 == k) = false := by simp [heq]
      have h2 : (k == k2) = false := by simp [Ne.symm heq]
      simp [dictInsert, List.lookup, h1, h2, ih]

theorem lookup_dictInsert_ne (d : List (String × Option String)) {k k2 : String}
    {v : Option String} (h : k2 ≠ k) :
    (dictInsert d k v).lookup k2 = d.lookup k2 := by
  have h0 : (k2 == k) = false := by simp [h]
  induction d with
  | nil => simp [dictInsert, List.lookup, h0]
  | cons p rest ih =>
    rcases p with ⟨k3, v3⟩
    by_cases heq : k3 = k
    · subst heq
      have h2 : (k2 == k3) = false := by simp [h]
      simp [dictInsert, List.lookup, h2]
    · have h1 : (k3 == k) = false := by simp [heq]
      by_cases heq2 : k2 = k3
      · subst heq2
        simp [dictInsert, List.lookup, h1]
      · have h2 : (k2 == k3) = false := by simp [heq2]
        simp [dictInsert, List.lookup, h1, h2, ih]

theorem lookup_foldl_insert_none_mem (l : List String) :
    ∀ (res : List (String × Option String)) (k : String),
      (k ∈ l ∨ res.lookup k = some none) →
      (l.foldl (fun r n => dictInsert r n none) res).lookup k = some none := by
  induction l with
  | nil =>
    intro res k h
    rcases h with h | h
    · cases h
    · simpa using h
  | cons a t ih =>
    intro res k h
    rw [List.foldl_cons]
    apply ih
    rcases h with h | h
    · rcases List.mem_cons.mp h with h1 | h1
      · subst h1
        exact Or.inr (lookup_dictInsert_self res k none)
      · exact Or.inl h1
    · by_cases hak : a = k
      · subst hak
        exact Or.inr (lookup_dictInsert_self res a none)
      · exact Or.inr (by rw [lookup_dictInsert_ne res (Ne.symm hak)]; exact h)

theorem lookup_foldl_insert_none_untouched (l : List String) :
    ∀ (res : List (String × Option String)) (k : String), k ∉ l →
      (l.foldl (fun r n => dictInsert r n none) res).lookup k = res.lookup k := by
  induction l with
  | nil => intro res k _; rfl
  | cons a t ih =>
    intro res k h
    rw [List.foldl_cons, ih _ k (fun hk => h (List.mem_cons_of_mem a hk))]
    exact lookup_dictInsert_ne res
      (fun he => h (by rw [he]; exact List.mem_cons_self a t))

theorem applyBatchEntry_results (valid : List String) (db : DB)
    (res : List (String × Option String)) (e : String × Option String) :
    (applyBatchEntry valid (db, res) e).2 =
      dictInsert res e.1 (batchEntryValue valid db.machines e.2) := by
  rcases e with ⟨raw, v⟩
  rcases v with - | r
  · rfl
  · unfold applyBatchEntry batchEntryValue
    dsimp only
    by_cases hcond : r ≠ "" ∧ r ∈ valid
    · rw [if_pos hcond, if_pos hcond]
      rcases hfind : db.machines.find? (fun m => m == r) with - | machine <;>
        simp only [hfind]
    · rw [if_neg hcond, if_neg hcond]

theorem processChunkEntries_step (valid : List String) (e : String × Option String)
    (rest : List (String × Option String)) (db : DB)
    (res : List (String × Option String)) :
    processChunkEntries valid (e :: rest) db res =
      processChunkEntries valid rest (applyBatchEntry valid (db, res) e).1
        (applyBatchEntry valid (db, res) e).2 := by
  unfold processChunkEntries
  rw [List.foldl_cons]

theorem processChunkEntries_results_untouched (valid : List String)
    (entries : List (String × Option String)) :
    ∀ (db : DB) (res : List (String × Option String)) (k : String),
      k ∉ entries.map Prod.fst →
      (processChunkEntries valid entries db res).2.lookup k = res.lookup k := by
  induction entries with
  | nil => intro db res k _; rfl
  | cons e rest ih =>
    intro db res k h
    rw [List.map_cons] at h
    rw [processChunkEntries_step, ih _ _ k (fun hk => h (List.mem_cons_of_mem _ hk))]
    rw [applyBatchEntry_results]
    exact lookup_dictInsert_ne res
      (fun he => h (by rw [he]; exact List.mem_cons_self e.1 (rest.map Prod.fst)))

theorem processChunkEntries_results_mem (valid : List String)
    (entries : List (String × Option String)) :
    ∀ (db : DB) (res : List (String × Option String)) (k : String) (v : Option String),
      (entries.map Prod.fst).Nodup → (k, v) ∈ entries →
      (processChunkEntries valid entries db res).2.lookup k =
        some (batchEntryValue valid db.machines v) := by
  induction entries with
  | nil =>
    intro db res k v _ h
    cases h
  | cons e rest ih =>
    intro db res k v hnd hmem
    rw [List.map_cons, List.nodup_cons] at hnd
    obtain ⟨hknotin, hnd2⟩ := hnd
    rcases List.mem_cons.mp hmem with heq | h1
    · obtain ⟨h1, h2⟩ := Prod.ext_iff.mp heq
      dsimp only at h1 h2
      subst h1
      subst h2
      rw [processChunkEntries_step,
        processChunkEntries_results_untouched valid rest _ _ e.1 hknotin,
        applyBatchEntry_results]
      exact lookup_dictInsert_self res e.1 _
    · rw [processChunkEntries_step]
      have hres := ih (applyBatchEntry valid (db, res) e).1
        (applyBatchEntry valid (db, res) e).2 k v hnd2 h1
      rw [(applyBatchEntry_shape valid (db, res) e).1] at hres
      exact hres

theorem batchAiLoop_cons_error
    (gen : List String → Except Unit (List (String × Option String)))
    (valid : List String) (c : List String) (rest : List (List String))
    (db : DB) (res : List (String × Option String)) (u : Unit)
    (hg : gen c = .error u) :
    batchAiLoop gen valid (c :: rest) db res =
      batchAiLoop gen valid rest db (c.foldl (fun r n => dictInsert r n none) res) := by
  rw [batchAiLoop, hg]

theorem batchAiLoop_cons_ok
    (gen : List String → Except Unit (List (String × Option String)))
    (valid : List String) (c : List String) (rest : List (List String))
    (db : DB) (res : List (String × Option String))
    (entries : List (String × Option String)) (hg : gen c = .ok entries) :
    batchAiLoop gen valid (c :: rest) db res =
      batchAiLoop gen valid rest (processChunkEntries valid entries db res).1
        (processChunkEntries valid entries db res).2 := by
  rw [batchAiLoop, hg]

theorem batchAiLoop_results_untouched
    (gen : List String → Except Unit (List (String × Option String)))
    (valid : List String) (cs : List (List String)) :
    ∀ (db : DB) (res : List (String × Option String)) (k : String),
      (∀ c ∈ cs, k ∉ chunkTouched gen c) →
      (batchAiLoop gen valid cs db res).2.lookup k = res.lookup k := by
  induction cs with
  | nil => intro db res k _; rfl
  | cons c0 rest ih =>
    intro db res k h
    have hc0 := h c0 (List.mem_cons_self c0 rest)
    rcases hg : gen c0 with u | entries
    · rw [batchAiLoop_cons_error gen valid c0 rest db res u hg,
        ih db _ k (fun c hc => h c (List.mem_cons_of_mem c0 hc))]
      apply lookup_foldl_insert_none_untouched
      simpa only [chunkTouched, hg] using hc0
    · rw [batchAiLoop_cons_ok gen valid c0 rest db res entries hg,
        ih _ _ k (fun c hc => h c (List.mem_cons_of_mem c0 hc))]
      apply processChunkEntries_results_untouched
      simpa only [chunkTouched, hg] using hc0

theorem batchAiLoop_results
    (gen : List String → Except Unit (List (String × Option String)))
    (valid : List String) (cs : List (List String)) :
    ∀ (db : DB) (res : List (String × Option String)),
      cs.flatten.Nodup →
      (∀ c ∈ cs, ∀ k ∈ chunkTouched gen c, k ∈ c) →
      (∀ c ∈ cs, (chunkTouched gen c).Nodup) →
      (∀ c ∈ cs, ∀ u, gen c = .error u → ∀ k ∈ c,
        (batchAiLoop gen valid cs db res).2.lookup k = some none) ∧
      (∀ c ∈ cs, ∀ entries, gen c = .ok entries → ∀ k v, (k, v) ∈ entries →
        (batchAiLoop gen valid cs db res).2.lookup k =
          some (batchEntryValue valid db.machines v)) := by
  induction cs with
  | nil =>
    intro db res _ _ _
    exact ⟨fun c hc => absurd hc (List.not_mem_nil c),
           fun c hc => absurd hc (List.not_mem_nil c)⟩
  | cons c0 rest ih =>
    intro db res hnd hsub hknd
    have hnd2 : (c0 ++ rest.flatten).Nodup := by simpa [List.flatten_cons] using hnd
    rw [List.nodup_append] at hnd2
    obtain ⟨-, hndrest, hdisj⟩ := hnd2
    have hsubrest : ∀ c ∈ rest, ∀ k ∈ chunkTouched gen c, k ∈ c :=
      fun c hc => hsub c (List.mem_cons_of_mem c0 hc)
    have hkndrest : ∀ c ∈ rest, (chunkTouched gen c).Nodup :=
      fun c hc => hknd c (List.mem_cons_of_mem c0 hc)
    have notouch : ∀ k, k ∈ c0 → ∀ c2 ∈ rest, k ∉ chunkTouched gen c2 := by
      intro k hk c2 hc2 hkt
      have hkc2 : k ∈ c2 := hsub c2 (List.mem_cons_of_mem c0 hc2) k hkt
      exact hdisj hk (List.mem_flatten.mpr ⟨c2, hc2, hkc2⟩)
    rcases hg0 : gen c0 with u0 | entries0
    · have heq := batchAiLoop_cons_error gen valid c0 rest db res u0 hg0
      have hrest := ih db (c0.foldl (fun r n => dictInsert r n none) res)
        hndrest hsubrest hkndrest
      constructor
      · intro c hc u hgc k hk
        rcases List.mem_cons.mp hc with rfl | hc2
        · rw [heq, batchAiLoop_results_untouched gen valid rest _ _ k (notouch k hk)]
          exact lookup_foldl_insert_none_mem c res k (Or.inl hk)
        · rw [heq]
          exact hrest.1 c hc2 u hgc k hk
      · intro c hc entries hgc k v hkv
        rcases List.mem_cons.mp hc with rfl | hc2
        · rw [hg0] at hgc
          cases hgc
        · rw [heq]
          exact hrest.2 c hc2 entries hgc k v hkv
    · have heq := batchAiLoop_cons_ok gen valid c0 rest db res entries0 hg0
      have hmachines : (processChunkEntries valid entries0 db res).1.machines =
          db.machines := (processChunkEntries_shape valid entries0 db res).1
      have hrest := ih (processChunkEntries valid entries0 db res).1
        (processChunkEntries valid entries0 db res).2 hndrest hsubrest hkndrest
      constructor
      · intro c hc u hgc k hk
        rcases List.mem_cons.mp hc with rfl | hc2
        · rw [hg0] at hgc
          cases hgc
        · rw [heq]
          exact hrest.1 c hc2 u hgc k hk
      · intro c hc entries hgc k v hkv
        rcases List.mem_cons.mp hc with rfl | hc2
        · rw [hg0] at hgc
          injection hgc with he
          subst he
          have hkt : k ∈ chunkTouched gen c := by
            simp only [chunkTouched, hg0]
            exact List.mem_map_of_mem Prod.fst hkv
          have hkc0 : k ∈ c := hsub c (List.mem_cons_self c rest) k hkt
          have hkeysnd : (entries0.map Prod.fst).Nodup := by
            have hx := hknd c (List.mem_cons_self c rest)
            simpa only [chunkTouched, hg0] using hx
          rw [heq, batchAiLoop_results_untouched gen valid rest _ _ k (notouch k hkc0)]
          exact processChunkEntries_results_mem valid entries0 db res k v hkeysnd hkv
        · rw [heq]
          have hres := hrest.2 c hc2 entries hgc k v hkv
          rw [hmachines] at hres
          exact hres

theorem chunksOfAux_join {α : Type} (n : Nat) (hn : n ≠ 0) :
    ∀ (fuel : Nat) (l : List α), l.length ≤ fuel → (chunksOfAux n fuel l).flatten = l := by
  intro fuel
  induction fuel with
  | zero =>
    intro l hl
    rw [Nat.le_zero, List.length_eq_zero] at hl
    subst hl
    rfl
  | succ f ih =>
    intro l hl
    rcases l with - | ⟨x, xs⟩
    · rfl
    · rw [show chunksOfAux n (f + 1) (x :: xs) =
          (x :: xs).take n :: chunksOfAux n f ((x :: xs).drop n) from rfl]
      rw [List.flatten_cons, ih ((x :: xs).drop n) ?_, List.take_append_drop]
      rw [List.length_drop, List.length_cons]
      rw [List.length_cons] at hl
      omega

theorem chunksOf_join {α : Type} (n : Nat) (hn : n ≠ 0) (l : List α) :
    (chunksOf n l).flatten = l :=
  chunksOfAux_join n hn l.length l (le_refl _)

theorem batch_ai_resolve_machines_eq_loop
    (gen : List String → Except Unit (List (String × Option String)))
    (db : DB) (raw_names : List String) (hmach : db.machines ≠ []) :
    batch_ai_resolve_machines (some gen) db raw_names =
      batchAiLoop gen db.machines (chunksOf BATCH_SIZE raw_names) db [] := by
  unfold batch_ai_resolve_machines
  rw [if_neg hmach]

/-- C6: a per-chunk oracle failure does not abort the batch.  Under
distinct raw names and an oracle whose response keys stay inside (and do
not repeat within) the chunk it was asked about: every name of a chunk
whose oracle call raises or whose response fails to parse is mapped to
`Unresolved` (`None`), and every entry of every successfully parsed chunk
still produces its result. -/
theorem batch_ai_resolve_partial_failure
    (gen : List String → Except Unit (List (String × Option String)))
    (db : DB) (raw_names : List String)
    (hmach : db.machines ≠ [])
    (hnd : raw_names.Nodup)
    (hsub : ∀ c ∈ chunksOf BATCH_SIZE raw_names, ∀ k ∈ chunkTouched gen c, k ∈ c)
    (hknd : ∀ c ∈ chunksOf BATCH_SIZE raw_names, (chunkTouched gen c).Nodup) :
    (∀ c ∈ chunksOf BATCH_SIZE raw_names, ∀ u, gen c = .error u → ∀ k ∈ c,
      (batch_ai_resolve_machines (some gen) db raw_names).2.lookup k = some none) ∧
    (∀ c ∈ chunksOf BATCH_SIZE raw_names, ∀ entries, gen c = .ok entries →
      ∀ k v, (k, v) ∈ entries →
      (batch_ai_resolve_machines (some gen) db raw_names).2.lookup k =
        some (batchEntryValue db.machines db.machines v)) := by
  have hflat : (chunksOf BATCH_SIZE raw_names).flatten = raw_names :=
    chunksOf_join BATCH_SIZE (by decide) raw_names
  have hndf : (chunksOf BATCH_SIZE raw_names).flatten.Nodup := by
    rw [hflat]
    exact hnd
  have h := batchAiLoop_results gen db.machines (chunksOf BATCH_SIZE raw_names) db []
    hndf hsub hknd
  rw [batch_ai_resolve_machines_eq_loop gen db raw_names hmach]
  exact h

example :
    (batch_ai_resolve_machines (some c6Gen) c6DB c6Names).2.lookup "b07" = some none ∧
    (batch_ai_resolve_machines (some c6Gen) c6DB c6Names).2.lookup "a13" =
      some (some "M1") ∧
    (batch_ai_resolve_machines (some c6Gen) c6DB c6Names).2.lookup "c03" =
      some (some "M1") :=
  ⟨rfl, rfl, rfl⟩

theorem batch_ai_resolve_partial_failure_witness :
    (c6DB.machines ≠ [] ∧ c6Names.Nodup ∧
      (∀ c ∈ chunksOf BATCH_SIZE c6Names, ∀ k ∈ chunkTouched c6Gen c, k ∈ c) ∧
      (∀ c ∈ chunksOf BATCH_SIZE c6Names, (chunkTouched c6Gen c).Nodup)) ∧
    ((∀ c ∈ chunksOf BATCH_SIZE c6Names, ∀ u, c6Gen c = .error u → ∀ k ∈ c,
        (batch_ai_resolve_machines (some c6Gen) c6DB c6Names).2.lookup k = some none) ∧
      (∀ c ∈ chunksOf BATCH_SIZE c6Names, ∀ entries, c6Gen c = .ok entries →
        ∀ k v, (k, v) ∈ entries →
        (batch_ai_resolve_machines (some c6Gen) c6DB c6Names).2.lookup k =
          some (batchEntryValue c6DB.machines c6DB.machines v))) :=
  ⟨⟨by decide, by decide, by decide, by decide⟩,
   batch_ai_resolve_partial_failure c6Gen c6DB c6Names (by decide) (by decide)
     (by decide) (by decide)⟩

/-- With case-insensitively distinct flattened chunks, a raw name can sit
in only one chunk. -/
theorem mem_chunk_unique {cs : List (List String)} (hnd : cs.flatten.Nodup) :
    ∀ {c c2 : List String}, c ∈ cs → c2 ∈ cs → ∀ {k : String}, k ∈ c → k ∈ c2 →
      c = c2 := by
  induction cs with
  | nil =>
    intro c c2 hc
    cases hc
  | cons c0 rest ih =>
    intro c c2 hc hc2 k hk hk2
    have hnd2 : (c0 ++ rest.flatten).Nodup := by simpa [List.flatten_cons] using hnd
    rw [List.nodup_append] at hnd2
    obtain ⟨-, hndrest, hdisj⟩ := hnd2
    rcases List.mem_cons.mp hc with rfl | hcr
    · rcases List.mem_cons.mp hc2 with rfl | hc2r
      · rfl
      · exact absurd (List.mem_flatten.mpr ⟨c2, hc2r, hk2⟩) (hdisj hk)
    · rcases List.mem_cons.mp hc2 with rfl | hc2r
      · exact absurd (List.mem_flatten.mpr ⟨c, hcr, hk⟩) (hdisj hk2)
      · exact ih hndrest hcr hc2r hk hk2

/-- C7 counterexample: with one canonical machine and the single raw name
`"x"`, an oracle that returns an empty JSON object yields an empty result
dictionary -- the input name is absent from the result, not mapped to
`Unresolved` -- contradicting the claim that the returned mapping is total
over the input list. -/
theorem batch_ai_resolve_absent_key_counterexample :
    (batch_ai_resolve_machines (some (fun _ => .ok [])) ⟨["M1"], []⟩ ["x"]).2 = [] ∧
    (batch_ai_resolve_machines (some (fun _ => .ok [])) ⟨["M1"], []⟩ ["x"]).2.lookup "x" =
      none :=
  ⟨rfl, rfl⟩

/-- C7 amended: the returned mapping is total only over the keys the
oracle returns plus the names of failed chunks.  Every name of a failed
chunk is present and maps to `Unresolved`; an oracle key mapped to null,
the empty string, or a name outside the canonical set is present and maps
to `Unresolved`; but a name of a successfully parsed chunk that the
oracle omitted from its JSON object is absent from the result. -/
theorem batch_ai_resolve_totality_amended
    (gen : List String → Except Unit (List (String × Option String)))
    (db : DB) (raw_names : List String)
    (hmach : db.machines ≠ [])
    (hnd : raw_names.Nodup)
    (hsub : ∀ c ∈ chunksOf BATCH_SIZE raw_names, ∀ k ∈ chunkTouched gen c, k ∈ c)
    (hknd : ∀ c ∈ chunksOf BATCH_SIZE raw_names, (chunkTouched gen c).Nodup) :
    (∀ c ∈ chunksOf BATCH_SIZE raw_names, ∀ u, gen c = .error u → ∀ k ∈ c,
      (batch_ai_resolve_machines (some gen) db raw_names).2.lookup k = some none) ∧
    (∀ c ∈ chunksOf BATCH_SIZE raw_names, ∀ entries, gen c = .ok entries →
      ∀ k v, (k, v) ∈ entries → batchEntryValue db.machines db.machines v = none →
      (batch_ai_resolve_machines (some gen) db raw_names).2.lookup k = some none) ∧
    (∀ c ∈ chunksOf BATCH_SIZE raw_names, ∀ entries, gen c = .ok entries →
      ∀ k ∈ c, k ∉ entries.map Prod.fst →
      (batch_ai_resolve_machines (some gen) db raw_names).2.lookup k = none) := by
  have hflat : (chunksOf BATCH_SIZE raw_names).flatten = raw_names :=
    chunksOf_join BATCH_SIZE (by decide) raw_names
  have hndf : (chunksOf BATCH_SIZE raw_names).flatten.Nodup := by
    rw [hflat]
    exact hnd
  have h := batchAiLoop_results gen db.machines (chunksOf BATCH_SIZE raw_names) db []
    hndf hsub hknd
  rw [batch_ai_resolve_machines_eq_loop gen db raw_names hmach]
  refine ⟨h.1, ?_, ?_⟩
  · intro c hc entries hgc k v hkv hval
    have hres := h.2 c hc entries hgc k v hkv
    rw [hval] at hres
    exact hres
  · intro c hc entries hgc k hkc hknot
    have hnotouch : ∀ c2 ∈ chunksOf BATCH_SIZE raw_names, k ∉ chunkTouched gen c2 := by
      intro c2 hc2 hkt
      have hkc2 : k ∈ c2 := hsub c2 hc2 k hkt
      have hceq : c = c2 := mem_chunk_unique hndf hc hc2 hkc hkc2
      subst hceq
      rw [show chunkTouched gen c = entries.map Prod.fst by
        simp only [chunkTouched, hgc]] at hkt
      exact hknot hkt
    rw [batchAiLoop_results_untouched gen db.machines (chunksOf BATCH_SIZE raw_names)
      db [] k hnotouch]
    rfl

theorem batch_ai_resolve_totality_amended_witness :
    (c7DB.machines ≠ [] ∧ c7Names.Nodup ∧
      (∀ c ∈ chunksOf BATCH_SIZE c7Names, ∀ k ∈ chunkTouched c7Gen c, k ∈ c) ∧
      (∀ c ∈ chunksOf BATCH_SIZE c7Names, (chunkTouched c7Gen c).Nodup)) ∧
    ((∀ c ∈ chunksOf BATCH_SIZE c7Names, ∀ u, c7Gen c = .error u → ∀ k ∈ c,
        (batch_ai_resolve_machines (some c7Gen) c7DB c7Names).2.lookup k = some none) ∧
      (∀ c ∈ chunksOf BATCH_SIZE c7Names, ∀ entries, c7Gen c = .ok entries →
        ∀ k v, (k, v) ∈ entries → batchEntryValue c7DB.machines c7DB.machines v = none →
        (batch_ai_resolve_machines (some c7Gen) c7DB c7Names).2.lookup k = some none) ∧
      (∀ c ∈ chunksOf BATCH_SIZE c7Names, ∀ entries, c7Gen c = .ok entries →
        ∀ k ∈ c, k ∉ entries.map Prod.fst →
        (batch_ai_resolve_machines (some c7Gen) c7DB c7Names).2.lookup k = none)) :=
  ⟨⟨by decide, by decide, by decide, by decide⟩,
   batch_ai_resolve_totality_amended c7Gen c7DB c7Names (by decide) (by decide)
     (by decide) (by decide)⟩

end SummaryReport
